import Mathlib

/-!
Decision widget: scoring engine and particle flow.

A shallow embedding of `src/Decision/app.js`.

Modelling conventions:
* JavaScript numbers are rationals (`ℚ`); `NaN` and the infinities only appear
  where the code parses user text (`Parsed`). The functions are given twice:
  with exact arithmetic (`effectiveWeight`, `computeScores`, `getWinnerIds`,
  the particle functions), and, for the scoring functions, with every
  operation rounded to IEEE 754 double precision (`fl`, namespace `IEEE`).
  The statements about guards, scaling by 2, object updates and particle
  bookkeeping use the exact functions; the statements about the value of a
  score or a comparison with `0.001` use the rounded ones.
* A JavaScript object with string keys is an association list in insertion
  order (`Obj`): `o[k] = v` is `Obj.set`, `o[k]` is `Obj.get`, `delete o[k]`
  is `Obj.delete`, `Object.keys(o)` is `Obj.keys`.
* The globals `state`, `bias` are the fields of `Model`; `particles` is passed
  explicitly.
* `Math.random()` is a stream of draws `Nat → ℚ` with an explicit cursor.
* The DOM lookups `get…DotPosition` are the fields of `Anchors`.
* `animate` keeps the three calls that touch `particles`; `resizeCanvas`,
  `clearRect` and `drawConnections` only paint and are left out.
-/

namespace Decision

/-! ## Objects -/

/-- A JavaScript object with string keys and numeric values, in the order the keys were
first written (the ids of this program, `r…` and `f…`, are never array indices, which
JavaScript would enumerate first). -/
abbrev Obj := List (String × ℚ)

namespace Obj

/-- Property read `o[k]`; `none` is `undefined`. -/
def get : Obj → String → Option ℚ
  | [], _ => none
  | (k', v) :: rest, k => if k' = k then some v else get rest k

/-- Property write `o[k] = v`: overwrite in place or append a new key. -/
def set : Obj → String → ℚ → Obj
  | [], k, v => [(k, v)]
  | (k', v') :: rest, k, v => if k' = k then (k', v) :: rest else (k', v') :: set rest k v

/-- Property removal `delete o[k]`. -/
def delete (o : Obj) (k : String) : Obj :=
  o.filter (fun e => decide (e.1 ≠ k))

/-- Enumeration `Object.keys(o)` / `for (const id in o)`. -/
def keys (o : Obj) : List String :=
  o.map Prod.fst

end Obj

/-! ## State -/

structure Restaurant where
  id : String
  name : String
deriving DecidableEq

structure Factor where
  id : String
  name : String
  weight : ℚ
  multiplier : Option ℚ
  scores : Obj
deriving DecidableEq

structure Bias where
  targetId : Option String
  strength : ℚ
  multiplier : Option ℚ
deriving DecidableEq

/-- The globals `state.restaurants`, `state.factors` and `bias`. -/
structure Model where
  restaurants : List Restaurant
  factors : List Factor
  bias : Bias
deriving DecidableEq

/-- The constant `multiplierSteps`. -/
def multiplierSteps : List ℚ :=
  [1/4, 1/2, 3/4, 1, 3/2, 2, 5/2, 3, 7/2, 4]

/-! ## Scoring -/

/-- The expression `x || 1` on a multiplier: `undefined` and `0` are falsy. -/
def orOne : Option ℚ → ℚ
  | none => 1
  | some q => if q = 0 then 1 else q

/-- The expression `x ?? 0` on a score entry. -/
def orZero : Option ℚ → ℚ
  | none => 0
  | some q => q

def effectiveWeight (f : Factor) : ℚ :=
  f.weight * orOne f.multiplier

/-- The local `effectiveBias` / `eb`: `bias.strength * (bias.multiplier || 1)`. -/
def effectiveBias (b : Bias) : ℚ :=
  b.strength * orOne b.multiplier

/-- The local `totalWeight` of `computeScores` and `getWinnerIds`. -/
def totalWeight (m : Model) : ℚ :=
  m.factors.foldl (fun sum f => sum + effectiveWeight f) 0 + effectiveBias m.bias

/-- The inner loop of `computeScores`: `weighted` after all factors. -/
def weightedSum (factors : List Factor) (rid : String) : ℚ :=
  factors.foldl (fun weighted f => weighted + effectiveWeight f * orZero (f.scores.get rid)) 0

/-- The value stored in `scores[r.id]` by one iteration of `computeScores`. -/
def scoreOf (m : Model) (rid : String) : ℚ :=
  if totalWeight m = 0 then 0
  else
    let weighted := weightedSum m.factors rid
    let weighted := if some rid = m.bias.targetId then weighted + effectiveBias m.bias * 10
                    else weighted
    weighted / totalWeight m

def computeScores (m : Model) : Obj :=
  m.restaurants.foldl (fun scores r => scores.set r.id (scoreOf m r.id)) []

/-- The loop `let maxScore = -1; for (const id in scores) …` of `getWinnerIds`. -/
def maxScore (scores : Obj) : ℚ :=
  (Obj.keys scores).foldl
    (fun mx id => match scores.get id with
      | some s => if s > mx then s else mx
      | none => mx)
    (-1)

def getWinnerIds (m : Model) (scores : Obj) : List String :=
  if m.restaurants.length < 2 then []
  else if totalWeight m = 0 then []
  else
    (Obj.keys scores).filter (fun id =>
      match scores.get id with
      | some s => decide (|s - maxScore scores| < 1/1000)
      | none => false)

/-- The initial `state` and `bias` of the program. -/
def initialModel : Model where
  restaurants := [⟨"r1", "Scott Cafe"⟩, ⟨"r2", "DJ's Dugout"⟩]
  factors :=
    [ ⟨"f1", "Cost", 5, some 1, [("r1", 10), ("r2", 3)]⟩,
      ⟨"f2", "Food Quality", 5, some 1, [("r1", 5), ("r2", 9)]⟩,
      ⟨"f3", "Time to Eat", 5, some 1, [("r1", 8), ("r2", 4)]⟩,
      ⟨"f4", "Social Atmosphere", 5, some 1, [("r1", 3), ("r2", 9)]⟩,
      ⟨"f5", "Walking Distance", 5, some 1, [("r1", 9), ("r2", 4)]⟩ ]
  bias := ⟨some "r1", 5, some 1⟩

/-! ## Mutation handlers -/

/-- The result of `Number(input.value)` on user text. -/
inductive Parsed where
  | num (q : ℚ)
  | nan
  | posInf
  | negInf
deriving DecidableEq

/-- The expression `Math.max(0, Math.min(10, Number(input.value) || 0))`. -/
def clampScore : Parsed → ℚ
  | .num q => max 0 (min 10 (if q = 0 then 0 else q))
  | .nan => max 0 (min 10 0)
  | .posInf => max 0 10
  | .negInf => 0

/-- The function `genId`: returns the id and the incremented `idCounter`. -/
def genId (pfx : String) (idCounter : Nat) : String × Nat :=
  (pfx ++ toString (idCounter + 1), idCounter + 1)

/-- Mutation of the first factor found by `state.factors.find((f) => f.id === id)`. -/
def updateFactor (id : String) (g : Factor → Factor) : List Factor → List Factor
  | [] => []
  | f :: fs => if f.id = id then g f :: fs else f :: updateFactor id g fs

/-- The `weight` branch of the `factorContainer` input handler. -/
def setWeight (m : Model) (id : String) (value : ℚ) : Model :=
  { m with factors := updateFactor id (fun f => { f with weight := value }) m.factors }

/-- The `multiplier` branch of the `factorContainer` input handler. -/
def setMultiplier (m : Model) (id : String) (index : Nat) : Model :=
  let step := multiplierSteps.get? index
  { m with factors := updateFactor id (fun f => { f with multiplier := step }) m.factors }

/-- The `bias-slider` branch of the `bias-node` input handler. -/
def setBiasStrength (m : Model) (value : ℚ) : Model :=
  { m with bias := { m.bias with strength := value } }

/-- The `bias-multiplier-slider` branch of the `bias-node` input handler. -/
def setBiasMultiplier (m : Model) (index : Nat) : Model :=
  let step := multiplierSteps.get? index
  { m with bias := { m.bias with multiplier := step } }

/-- The `scoreInputs.forEach` loop of `showAddFactorModal`: builds `scores`. -/
def collectScores (inputs : List (String × Parsed)) : Obj :=
  inputs.foldl (fun scores input => scores.set input.1 (clampScore input.2)) []

/-- The confirm handler of `showAddFactorModal` (for a non-empty `name`). -/
def addFactor (m : Model) (idCounter : Nat) (name : String)
    (inputs : List (String × Parsed)) : Model × Nat :=
  let fid := genId "f" idCounter
  ({ m with factors := m.factors ++
      [{ id := fid.1, name := name, weight := 5, multiplier := some 1,
         scores := collectScores inputs }] }, fid.2)

/-- The `scoreInputs.forEach` loop shared by the add and edit restaurant handlers. -/
def applyScoreInputs (rid : String) (inputs : List (String × Parsed))
    (factors : List Factor) : List Factor :=
  inputs.foldl
    (fun fs input =>
      updateFactor input.1 (fun f => { f with scores := f.scores.set rid (clampScore input.2) }) fs)
    factors

/-- The confirm handler of `showAddRestaurantModal` (for a non-empty `name`). -/
def addRestaurant (m : Model) (idCounter : Nat) (name : String)
    (inputs : List (String × Parsed)) : Model × Nat :=
  let rid := genId "r" idCounter
  ({ m with restaurants := m.restaurants ++ [{ id := rid.1, name := name }],
            factors := applyScoreInputs rid.1 inputs m.factors }, rid.2)

/-- Renaming of the restaurant found by `state.restaurants.find`. -/
def renameFirst (rid : String) (name : String) : List Restaurant → List Restaurant
  | [] => []
  | r :: rs => if r.id = rid then { r with name := name } :: rs else r :: renameFirst rid name rs

/-- The confirm handler of `showEditRestaurantModal`; `name` is the trimmed text. -/
def editRestaurant (m : Model) (rid : String) (name : String)
    (inputs : List (String × Parsed)) : Model :=
  if m.restaurants.any (fun r => decide (r.id = rid)) then
    { m with restaurants := if name = "" then m.restaurants else renameFirst rid name m.restaurants,
             factors := applyScoreInputs rid inputs m.factors }
  else m

/-- The `remove-factor` branch of the `factorContainer` click handler. -/
def removeFactor (m : Model) (id : String) : Model :=
  { m with factors := m.factors.filter (fun f => decide (f.id ≠ id)) }

/-- The `remove-restaurant` branch of the `restaurantContainer` click handler. -/
def removeRestaurant (m : Model) (rid : String) : Model :=
  { m with restaurants := m.restaurants.filter (fun r => decide (r.id ≠ rid)),
           factors := m.factors.map (fun f => { f with scores := f.scores.delete rid }) }

/-! ## Particles -/

structure Point where
  x : ℚ
  y : ℚ
deriving DecidableEq

structure Particle where
  factorId : String
  restaurantId : Option String
  progress : ℚ
  speed : ℚ
  opacity : ℚ
  size : ℚ
deriving DecidableEq

/-- The global `particles` together with the number of `Math.random()` calls made so far. -/
structure Sim where
  particles : List Particle
  cursor : Nat
deriving DecidableEq

def bezierPoint (p0 p1 p2 : Point) (t : ℚ) : Point :=
  let u := 1 - t
  { x := u * u * p0.x + 2 * u * t * p1.x + t * t * p2.x,
    y := u * u * p0.y + 2 * u * t * p1.y + t * t * p2.y }

/-- The statement `if (Math.random() < rate) particles.push(p)`. -/
def spawnIf (rand : Nat → ℚ) (rate : ℚ) (p : Particle) (s : Sim) : Sim :=
  if rand s.cursor < rate then { particles := s.particles ++ [p], cursor := s.cursor + 1 }
  else { particles := s.particles, cursor := s.cursor + 1 }

/-- The particle pushed on a source-to-decision edge with effective weight `ew`. -/
def sourceParticle (sourceId : String) (ew : ℚ) : Particle :=
  { factorId := sourceId, restaurantId := none, progress := 0,
    speed := 3/1000 + ew * (2/1000),
    opacity := min 1 (2/10 + (ew / 10) * (7/10)),
    size := 3/2 + (ew / 10) * 2 }

/-- The particle pushed on a decision-to-restaurant edge carrying `signal`. -/
def targetParticle (sourceId : String) (restaurantId : Option String) (signal : ℚ) : Particle :=
  { factorId := sourceId, restaurantId := restaurantId, progress := 0,
    speed := 3/1000 + (signal / 100) * (4/1000),
    opacity := 15/100 + (signal / 100) * (6/10),
    size := 3/2 + (signal / 100) * 2 }

/-- One iteration of the inner loop of `spawnParticles` (decision to one restaurant). -/
def spawnToRestaurant (rand : Nat → ℚ) (factor : Factor) (ew : ℚ) (s : Sim) (r : Restaurant) :
    Sim :=
  let score := orZero (factor.scores.get r.id)
  let signal := ew * score
  let rSpawnRate := 2/1000 + (signal / 100) * (12/1000)
  spawnIf rand rSpawnRate (targetParticle factor.id (some r.id) signal) s

/-- One iteration of the outer loop of `spawnParticles`. -/
def spawnForFactor (m : Model) (rand : Nat → ℚ) (s : Sim) (factor : Factor) : Sim :=
  let ew := effectiveWeight factor
  if ew = 0 then s
  else
    let spawnRate := 1/100 + ew * (8/1000)
    let s := spawnIf rand spawnRate (sourceParticle factor.id ew) s
    m.restaurants.foldl (spawnToRestaurant rand factor ew) s

def spawnParticles (m : Model) (rand : Nat → ℚ) (s : Sim) : Sim :=
  m.factors.foldl (spawnForFactor m rand) s

def spawnBiasParticles (m : Model) (rand : Nat → ℚ) (s : Sim) : Sim :=
  let eb := effectiveBias m.bias
  if eb = 0 then s
  else
    let spawnRate := 1/100 + eb * (8/1000)
    let s := spawnIf rand spawnRate (sourceParticle "__bias__" eb) s
    let signal := eb * 10
    let rSpawnRate := 2/1000 + (signal / 100) * (12/1000)
    spawnIf rand rSpawnRate (targetParticle "__bias__" m.bias.targetId signal) s

/-- The DOM position lookups; `none` is a `null` result. -/
structure Anchors where
  decision : Point
  factorDot : String → Option Point
  restaurantDot : String → Option Point
  biasDot : Option Point

/-- The four `fillStyle` colours of `drawParticles`. -/
inductive Fill where
  | amber
  | cyan
  | green
  | grey
deriving DecidableEq

/-- One rendered dot: the `t` given to `bezierPoint`, the resulting `pos`, and the
arguments of `ctx.arc` and `ctx.fillStyle`. -/
structure Draw where
  t : ℚ
  pos : Point
  radius : ℚ
  fill : Fill
  opacity : ℚ
deriving DecidableEq

def midpoint (a b : Point) : Point :=
  { x := (a.x + b.x) / 2, y := (a.y + b.y) / 2 }

/-- The statement `p.progress += p.speed`. -/
def advance (p : Particle) : Particle :=
  { p with progress := p.progress + p.speed }

/-- The body of the loop of `drawParticles` for one particle: the particle kept in the
collection (if not spliced out) and the dot drawn (if any). -/
def drawParticle (a : Anchors) (winnerIds : List String) (p0 : Particle) :
    Option Particle × Option Draw :=
  let p := advance p0
  if p.progress ≥ 1 then (none, none)
  else
    let isBias := decide (p.factorId = "__bias__")
    match p.restaurantId with
    | none =>
      match (if isBias then a.biasDot else a.factorDot p.factorId) with
      | none => (none, none)
      | some start =>
        let cp := midpoint start a.decision
        let pos := bezierPoint start cp a.decision p.progress
        (some p, some { t := p.progress, pos := pos, radius := p.size,
                        fill := if isBias then Fill.amber else Fill.cyan, opacity := p.opacity })
    | some rid =>
      match a.restaurantDot rid with
      | none => (none, none)
      | some stop =>
        let cp := midpoint a.decision stop
        let pos := bezierPoint a.decision cp stop p.progress
        let isWinner := winnerIds.contains rid
        (some p, some { t := p.progress, pos := pos, radius := p.size,
                        fill := if isWinner then Fill.green else Fill.grey, opacity := p.opacity })

/-- The function `drawParticles`: the loop runs from the last particle to the first; the
result is the surviving collection (in order) and the dots in drawing order. -/
def drawParticles (m : Model) (a : Anchors) (particles : List Particle) :
    List Particle × List Draw :=
  let winnerIds := getWinnerIds m (computeScores m)
  particles.foldr
    (fun p acc =>
      let r := drawParticle a winnerIds p
      (r.1.toList ++ acc.1, acc.2 ++ r.2.toList))
    ([], [])

/-- One frame of `animate`: spawn, spawn bias, then advance and draw. -/
def animate (m : Model) (a : Anchors) (rand : Nat → ℚ) (s : Sim) : Sim × List Draw :=
  let s := spawnParticles m rand s
  let s := spawnBiasParticles m rand s
  let r := drawParticles m a s.particles
  ({ particles := r.1, cursor := s.cursor }, r.2)

/-- Anchors with every node laid out on a line; used for concrete runs. -/
def sampleAnchors : Anchors where
  decision := ⟨100, 100⟩
  factorDot := fun _ => some ⟨0, 0⟩
  restaurantDot := fun _ => some ⟨200, 0⟩
  biasDot := some ⟨0, 200⟩

/-- The model with every factor weight and the bias strength multiplied by `c`. -/
def scaleWeights (c : ℚ) (m : Model) : Model :=
  { m with factors := m.factors.map (fun f => { f with weight := c * f.weight }),
           bias := { m.bias with strength := c * m.bias.strength } }

/-- The number `M` is the maximum score over all options: some option has score `M` and
no option scores more. -/
def IsMaxScore (scores : Obj) (M : ℚ) : Prop :=
  (∃ k, scores.get k = some M) ∧ ∀ k s, scores.get k = some s → s ≤ M

/-- The end-to-end example: one factor (weight 10, multiplier 1, A=8, B=2), two
options, no bias. -/
def exampleModel : Model where
  restaurants := [⟨"A", "A"⟩, ⟨"B", "B"⟩]
  factors := [⟨"f1", "F", 10, some 1, [("A", 8), ("B", 2)]⟩]
  bias := ⟨none, 0, some 1⟩

/-- The bias-only example: no factors, bias strength 5 toward A among A and B. -/
def biasOnlyModel : Model where
  restaurants := [⟨"A", "A"⟩, ⟨"B", "B"⟩]
  factors := []
  bias := ⟨some "A", 5, some 1⟩

/-- The documented ranges: weights and bias strength in [0,10], multipliers taken from
`multiplierSteps`, every present factor score in [0,10]. -/
def InRange (m : Model) : Prop :=
  (∀ f ∈ m.factors, 0 ≤ f.weight ∧ f.weight ≤ 10 ∧ f.multiplier ∈ multiplierSteps.map some ∧
      ∀ e ∈ f.scores, 0 ≤ e.2 ∧ e.2 ≤ 10) ∧
  0 ≤ m.bias.strength ∧ m.bias.strength ≤ 10 ∧ m.bias.multiplier ∈ multiplierSteps.map some

instance (m : Model) : Decidable (InRange m) := by
  unfold InRange
  infer_instance

/-- The lookup `state.factors.find((f) => f.id === fid)`. -/
def lookupFactor (fs : List Factor) (fid : String) : Option Factor :=
  fs.find? (fun f => decide (f.id = fid))

/-- A score value inside the documented range [0,10]. -/
def ScoreOk (s : ℚ) : Prop :=
  0 ≤ s ∧ s ≤ 10

/-- A model with non-negative weights, multipliers and scores. -/
def NonNegModel (m : Model) : Prop :=
  (∀ f ∈ m.factors, 0 ≤ f.weight ∧ (∀ q ∈ f.multiplier, (0 : ℚ) ≤ q) ∧
      ∀ e ∈ f.scores, 0 ≤ e.2) ∧
  0 ≤ m.bias.strength ∧ ∀ q ∈ m.bias.multiplier, (0 : ℚ) ≤ q

/-- The particle collections reachable from the empty collection by frames of `animate`
over non-negative models (the model, the layout and the random draws may change between
frames). -/
inductive Reachable : List Particle → Prop
  | empty : Reachable []
  | tick (m : Model) (a : Anchors) (rand : Nat → ℚ) (s : Sim) :
      Reachable s.particles → NonNegModel m → Reachable (animate m a rand s).1.particles

instance (m : Model) : Decidable (NonNegModel m) := by
  unfold NonNegModel
  infer_instance

/-- The simulation `s'` extends `s` by appending particles that all satisfy `Q`. -/
def Appends (Q : Particle → Prop) (s s' : Sim) : Prop :=
  ∃ new, s'.particles = s.particles ++ new ∧ ∀ p ∈ new, Q p

/-- A model whose total weight is 0: every weight and the bias strength are 0. -/
def zeroModel : Model where
  restaurants := [⟨"r1", "Scott Cafe"⟩, ⟨"r2", "DJ's Dugout"⟩]
  factors := [⟨"f1", "Cost", 0, some 1, [("r1", 10), ("r2", 3)]⟩]
  bias := ⟨some "r1", 0, some 2⟩

/-- A freshly pushed particle: progress 0, and speed at least 0.003 when the model is
non-negative. -/
def Fresh (m : Model) (p : Particle) : Prop :=
  p.progress = 0 ∧ (NonNegModel m → 3/1000 ≤ p.speed)

/-! ## Double-precision arithmetic -/

/-- The number of binary digits of `n`, by halving (`fuel` bounds the number of steps). -/
def bitLength : Nat → Nat → Nat
  | 0, _ => 0
  | fuel + 1, n => if n = 0 then 0 else bitLength fuel (n / 2) + 1

/-- The binary exponent of a non-zero `x`: the `e` with `2^e ≤ |x| < 2^(e+1)`. -/
def expo (x : ℚ) : ℤ :=
  let k : ℤ := (bitLength x.num.natAbs x.num.natAbs : ℤ) - (bitLength x.den x.den : ℤ)
  if (2 : ℚ) ^ k ≤ |x| then k else k - 1

/-- Rounding to the nearest integer, ties to the even one. -/
def roundEven (q : ℚ) : ℤ :=
  if q - ⌊q⌋ < 1/2 then ⌊q⌋
  else if 1/2 < q - ⌊q⌋ then ⌊q⌋ + 1
  else if ⌊q⌋ % 2 = 0 then ⌊q⌋ else ⌊q⌋ + 1

/-- The IEEE 754 binary64 value of a real result: round to nearest, ties to even, with a
53-bit significand and gradual underflow (the spacing never goes below `2^-1074`).
Overflow to `Infinity` is not represented; the sums of this program stay far below
`2^1024`. Every JavaScript operation `a ∘ b` on numbers is `fl (a ∘ b)`. -/
def fl (x : ℚ) : ℚ :=
  if x = 0 then 0
  else
    let u : ℚ := (2 : ℚ) ^ (max (expo x) (-1022) - 52)
    (roundEven (x / u) : ℚ) * u

namespace IEEE

/-! The scoring functions with every multiplication, addition, subtraction and division
rounded to double precision, and the literal `0.001` read as the nearest double. -/

def effectiveWeight (f : Factor) : ℚ :=
  fl (f.weight * orOne f.multiplier)

def effectiveBias (b : Bias) : ℚ :=
  fl (b.strength * orOne b.multiplier)

def totalWeight (m : Model) : ℚ :=
  fl (m.factors.foldl (fun sum f => fl (sum + effectiveWeight f)) 0 + effectiveBias m.bias)

def weightedSum (factors : List Factor) (rid : String) : ℚ :=
  factors.foldl
    (fun weighted f => fl (weighted + fl (effectiveWeight f * orZero (f.scores.get rid)))) 0

def scoreOf (m : Model) (rid : String) : ℚ :=
  if totalWeight m = 0 then 0
  else
    let weighted := weightedSum m.factors rid
    let weighted := if some rid = m.bias.targetId
                    then fl (weighted + fl (effectiveBias m.bias * 10))
                    else weighted
    fl (weighted / totalWeight m)

def computeScores (m : Model) : Obj :=
  m.restaurants.foldl (fun scores r => scores.set r.id (scoreOf m r.id)) []

def getWinnerIds (m : Model) (scores : Obj) : List String :=
  if m.restaurants.length < 2 then []
  else if totalWeight m = 0 then []
  else
    (Obj.keys scores).filter (fun id =>
      match scores.get id with
      | some s => decide (|fl (s - maxScore scores)| < fl (1/1000))
      | none => false)

end IEEE

/-- The values the weight slider delivers: `renderFactors` builds it as
`<input type="range" min="0" max="10">`, so its value is a whole number from 0 to 10. -/
def sliderValues : List ℚ :=
  [0, 1, 2, 3, 4, 5, 6, 7, 8, 9, 10]

/-- A model whose weights and bias strength are slider values, whose multipliers are
multiplier steps, whose present factor scores are in [0,10], and which has at most a
million factors. -/
def SliderRange (m : Model) : Prop :=
  (∀ f ∈ m.factors, f.weight ∈ sliderValues ∧ f.multiplier ∈ multiplierSteps.map some ∧
      ∀ e ∈ f.scores, 0 ≤ e.2 ∧ e.2 ≤ 10) ∧
  m.bias.strength ∈ sliderValues ∧ m.bias.multiplier ∈ multiplierSteps.map some ∧
  m.factors.length ≤ 1000000

instance (m : Model) : Decidable (SliderRange m) := by
  unfold SliderRange
  infer_instance

/-- Every present factor score is a whole number from 0 to 10. -/
def IntegerScores (m : Model) : Prop :=
  ∀ f ∈ m.factors, ∀ e ∈ f.scores, e.2 ∈ sliderValues

instance (m : Model) : Decidable (IntegerScores m) := by
  unfold IntegerScores
  infer_instance

/-- One factor (slider weight 6, multiplier 0.75) whose typed score for A is 7.8. -/
def roundedScoreModel : Model where
  restaurants := [⟨"A", "A"⟩, ⟨"B", "B"⟩]
  factors := [⟨"f1", "F", 6, some (3/4), [("A", fl (39/5)), ("B", 2)]⟩]
  bias := ⟨none, 0, some 1⟩

/-- One factor (slider weight 1, multiplier 0.75) whose typed scores are 0.002953125 for
A and 0.001953125 for B. -/
def nearTieModel : Model where
  restaurants := [⟨"A", "A"⟩, ⟨"B", "B"⟩]
  factors := [⟨"f1", "F", 1, some (3/4), [("A", fl (2953125/1000000000)), ("B", 1/512)]⟩]
  bias := ⟨none, 0, some 1⟩

/-- No factors and a bias toward A of strength `s` with multiplier 0.75. -/
def biasOnly (s : ℚ) : Model where
  restaurants := [⟨"A", "A"⟩, ⟨"B", "B"⟩]
  factors := []
  bias := ⟨some "A", s, some (3/4)⟩

/-- Modelled from the spec: the values the bias strength slider delivers. The element
`bias-slider` is markup outside `app.js`; the spec gives the bias strength the range
[0,10]. -/
def BiasSliderValue (v : ℚ) : Prop :=
  0 ≤ v ∧ v ≤ 10

/-- One factor (weight 7, multiplier 3) whose typed score for A is 9.999999999999991, and
a bias toward A of strength `s` with multiplier 1.5. -/
def nearTenFactor (s : ℚ) : Model where
  restaurants := [⟨"A", "A"⟩, ⟨"B", "B"⟩]
  factors := [⟨"f1", "F", 7, some 3, [("A", fl (9999999999999991/1000000000000000)), ("B", 4)]⟩]
  bias := ⟨some "A", s, some (3/2)⟩

/-- One factor (weight 10, multiplier 3, A=10, B=4) and a bias toward A of strength `s`
with multiplier 3. -/
def strongFactor (s : ℚ) : Model where
  restaurants := [⟨"A", "A"⟩, ⟨"B", "B"⟩]
  factors := [⟨"f1", "F", 10, some 3, [("A", 10), ("B", 4)]⟩]
  bias := ⟨some "A", s, some 3⟩

/-! ## Particles: the spawn rule as the specification words it -/

/-- Specification: the spawn probability of the decision-to-option edge of the
pair `(f, o)`, `0.002 + (signal/100) * 0.012` with `signal = ew * (f.scores[o] or 0)`. -/
def specPairRate (f : Factor) (o : Restaurant) : ℚ :=
  2/1000 + (effectiveWeight f * orZero (f.scores.get o.id) / 100) * (12/1000)

/-- Specification: the decision-to-option particle of the pair `(f, o)`. -/
def specPairParticle (f : Factor) (o : Restaurant) : Particle :=
  { factorId := f.id, restaurantId := some o.id, progress := 0,
    speed := 3/1000 + (effectiveWeight f * orZero (f.scores.get o.id) / 100) * (4/1000),
    opacity := 15/100 + (effectiveWeight f * orZero (f.scores.get o.id) / 100) * (6/10),
    size := 3/2 + (effectiveWeight f * orZero (f.scores.get o.id) / 100) * 2 }

/-- Specification: the decision-to-option particles of factor `f` for the options `rs`,
the option at position `j` being decided by draw number `c + j`. -/
def specPairSpawns (rand : Nat → ℚ) (f : Factor) : Nat → List Restaurant → List Particle
  | _, [] => []
  | c, o :: rs =>
    (if rand c < specPairRate f o then [specPairParticle f o] else [])
      ++ specPairSpawns rand f (c + 1) rs

/-- Specification: the factor-to-decision particle of `f`, decided by draw number `c`. -/
def specSourceSpawn (rand : Nat → ℚ) (f : Factor) (c : Nat) : List Particle :=
  if rand c < 1/100 + effectiveWeight f * (8/1000)
  then [sourceParticle f.id (effectiveWeight f)] else []

/-- Specification: the number of draws the factors `fs` use: none for a factor of
effective weight 0, otherwise one plus one per option. -/
def specDraws (m : Model) : List Factor → Nat
  | [] => 0
  | f :: fs => (if effectiveWeight f = 0 then 0 else 1 + m.restaurants.length) + specDraws m fs

/-- Specification: all particles pushed for the factors `fs`, the first draw being number
`c`. -/
def specFactorSpawns (m : Model) (rand : Nat → ℚ) : Nat → List Factor → List Particle
  | _, [] => []
  | c, f :: fs =>
    if effectiveWeight f = 0 then specFactorSpawns m rand c fs
    else specSourceSpawn rand f c
      ++ (specPairSpawns rand f (c + 1) m.restaurants
        ++ specFactorSpawns m rand (c + (1 + m.restaurants.length)) fs)

/-- The number of the draw that decides the pair of factor `f` (preceded by the factors
`pre`) and the option preceded by the options `rpre`. -/
def pairDraw (m : Model) (s : Sim) (pre : List Factor) (rpre : List Restaurant) : Nat :=
  s.cursor + specDraws m pre + 1 + rpre.length

/-- Specification: the collection before the slot of the pair: the old particles, those
of the factors `pre`, the factor-to-decision particle of `f`, and those of the options
`rpre`. -/
def specBefore (m : Model) (rand : Nat → ℚ) (s : Sim) (pre : List Factor) (f : Factor)
    (rpre : List Restaurant) : List Particle :=
  s.particles ++ specFactorSpawns m rand s.cursor pre
    ++ specSourceSpawn rand f (s.cursor + specDraws m pre)
    ++ specPairSpawns rand f (s.cursor + specDraws m pre + 1) rpre

/-- Specification: the particles pushed after the slot of the pair: those of the options
`rpost` of `f` and those of the factors `post`. -/
def specAfter (m : Model) (rand : Nat → ℚ) (s : Sim) (pre : List Factor) (f : Factor)
    (rpre rpost : List Restaurant) (post : List Factor) : List Particle :=
  specPairSpawns rand f (pairDraw m s pre rpre + 1) rpost
    ++ specFactorSpawns m rand (pairDraw m s pre rpre + 1 + rpost.length) post

/-- A stream of draws that misses at draw 2 and hits everywhere else. -/
def missAtTwo : Nat → ℚ :=
  fun i => if i = 2 then 1 else 0

/-! ## Objects: basic facts -/

theorem obj_get_set_self (o : Obj) (k : String) (v : ℚ) : (o.set k v).get k = some v := by
  induction o with
  | nil => simp [Obj.set, Obj.get]
  | cons e rest ih =>
    obtain ⟨k', v'⟩ := e
    by_cases h : k' = k
    · simp [Obj.set, Obj.get, h]
    · simp [Obj.set, Obj.get, h, ih]

theorem obj_get_set_ne (o : Obj) {k k' : String} (v : ℚ) (h : k ≠ k') :
    (o.set k v).get k' = o.get k' := by
  induction o with
  | nil => simp [Obj.set, Obj.get, h]
  | cons e rest ih =>
    obtain ⟨k₀, v₀⟩ := e
    by_cases h₀ : k₀ = k
    · subst h₀
      simp [Obj.set, Obj.get, h]
    · by_cases h₁ : k₀ = k'
      · subst h₁
        simp [Obj.set, Obj.get, h₀]
      · simp [Obj.set, Obj.get, h₀, h₁, ih]

theorem obj_mem_keys_iff (o : Obj) (k : String) : k ∈ o.keys ↔ ∃ v, o.get k = some v := by
  induction o with
  | nil => simp [Obj.keys, Obj.get]
  | cons e rest ih =>
    obtain ⟨k₀, v₀⟩ := e
    by_cases h₀ : k₀ = k
    · simp [Obj.keys, Obj.get, h₀]
    · have h₁ : ¬ k = k₀ := fun h => h₀ h.symm
      simp only [Obj.keys, List.map_cons, List.mem_cons, h₁, false_or, Obj.get, h₀, if_false]
      exact ih

theorem obj_get_mem (o : Obj) (k : String) (v : ℚ) (h : o.get k = some v) : (k, v) ∈ o := by
  induction o with
  | nil => simp [Obj.get] at h
  | cons e rest ih =>
    obtain ⟨k₀, v₀⟩ := e
    by_cases h₀ : k₀ = k
    · simp [Obj.get, h₀] at h
      simp [h₀, h]
    · simp [Obj.get, h₀] at h
      exact List.mem_cons_of_mem _ (ih h)

theorem obj_get_delete_self (o : Obj) (k : String) : (o.delete k).get k = none := by
  induction o with
  | nil => simp [Obj.delete, Obj.get]
  | cons e rest ih =>
    obtain ⟨k₀, v₀⟩ := e
    by_cases h₀ : k₀ = k
    · simpa [Obj.delete, List.filter_cons, h₀] using ih
    · simpa [Obj.delete, List.filter_cons, h₀, Obj.get] using ih

theorem obj_get_delete_ne (o : Obj) {k k' : String} (h : k' ≠ k) :
    (o.delete k).get k' = o.get k' := by
  induction o with
  | nil => simp [Obj.delete, Obj.get]
  | cons e rest ih =>
    obtain ⟨k₀, v₀⟩ := e
    by_cases h₀ : k₀ = k
    · subst h₀
      have h₁ : ¬ k₀ = k' := fun h' => h h'.symm
      simpa [Obj.delete, List.filter_cons, Obj.get, h₁] using ih
    · by_cases h₁ : k₀ = k'
      · subst h₁
        simp [Obj.delete, List.filter_cons, h₀, Obj.get]
      · simpa [Obj.delete, List.filter_cons, h₀, Obj.get, h₁] using ih

/-! ## Scoring: the loops as sums -/

theorem foldl_add_eq_sum {α : Type} (g : α → ℚ) (l : List α) (a : ℚ) :
    l.foldl (fun acc x => acc + g x) a = a + (l.map g).sum := by
  induction l generalizing a with
  | nil => simp
  | cons x xs ih => simp [List.foldl_cons, ih, add_assoc]

theorem totalWeight_eq (m : Model) :
    totalWeight m = (m.factors.map effectiveWeight).sum + effectiveBias m.bias := by
  unfold totalWeight
  rw [foldl_add_eq_sum effectiveWeight]
  simp

theorem weightedSum_eq (factors : List Factor) (rid : String) :
    weightedSum factors rid
      = (factors.map (fun f => effectiveWeight f * orZero (f.scores.get rid))).sum := by
  unfold weightedSum
  rw [foldl_add_eq_sum (fun f => effectiveWeight f * orZero (f.scores.get rid))]
  simp

theorem get_foldl_set (g : String → ℚ) (rs : List Restaurant) (acc : Obj) (k : String) :
    (rs.foldl (fun scores r => scores.set r.id (g r.id)) acc).get k
      = if k ∈ rs.map (fun r => r.id) then some (g k) else acc.get k := by
  induction rs generalizing acc with
  | nil => simp
  | cons r rs ih =>
    rw [List.foldl_cons, ih]
    by_cases hk : k ∈ rs.map (fun r => r.id)
    · simp [hk]
    · by_cases hr : r.id = k
      · subst hr
        simp [obj_get_set_self]
      · have hr' : ¬ k = r.id := fun h => hr h.symm
        simp [hk, hr', obj_get_set_ne _ _ hr]

theorem computeScores_get (m : Model) (k : String) :
    (computeScores m).get k
      = if k ∈ m.restaurants.map (fun r => r.id) then some (scoreOf m k) else none := by
  unfold computeScores
  rw [get_foldl_set (scoreOf m)]
  simp [Obj.get]

theorem computeScores_get_of_mem (m : Model) (r : Restaurant) (hr : r ∈ m.restaurants) :
    (computeScores m).get r.id = some (scoreOf m r.id) := by
  rw [computeScores_get]
  have : r.id ∈ m.restaurants.map (fun r => r.id) := List.mem_map_of_mem _ hr
  simp only [this, if_true]

theorem computeScores_get_some (m : Model) (k : String) (s : ℚ)
    (h : (computeScores m).get k = some s) : s = scoreOf m k := by
  rw [computeScores_get] at h
  split at h
  · exact (Option.some.inj h).symm
  · cases h

theorem orOne_nonneg (q : Option ℚ) (h : ∀ x ∈ q, (0 : ℚ) ≤ x) : 0 ≤ orOne q := by
  cases q with
  | none => norm_num [orOne]
  | some x =>
    simp only [orOne]
    split
    · norm_num
    · exact h x rfl

theorem orZero_get_nonneg (o : Obj) (k : String) (h : ∀ e ∈ o, 0 ≤ e.2) :
    0 ≤ orZero (o.get k) := by
  cases hg : o.get k with
  | none => norm_num [orZero]
  | some v => exact h (k, v) (obj_get_mem o k v hg)

/-! ## C1 -/

/-- C1: when `totalWeight` is 0, `computeScores` stores score 0 for every option (and the
returned object holds no other value), and `getWinnerIds` of those scores is empty. -/
theorem zero_totalWeight_scores_and_winners (m : Model) (h : totalWeight m = 0) :
    (∀ r ∈ m.restaurants, (computeScores m).get r.id = some 0) ∧
    (∀ k s, (computeScores m).get k = some s → s = 0) ∧
    getWinnerIds m (computeScores m) = [] := by
  refine ⟨?_, ?_, ?_⟩
  · intro r hr
    rw [computeScores_get_of_mem m r hr]
    simp [scoreOf, h]
  · intro k s hs
    rw [computeScores_get_some m k s hs]
    simp [scoreOf, h]
  · simp [getWinnerIds, h]

theorem zero_totalWeight_scores_and_winners_witness :
    totalWeight zeroModel = 0 ∧
    ((∀ r ∈ zeroModel.restaurants, (computeScores zeroModel).get r.id = some 0) ∧
     (∀ k s, (computeScores zeroModel).get k = some s → s = 0) ∧
     getWinnerIds zeroModel (computeScores zeroModel) = []) :=
  ⟨by decide!, zero_totalWeight_scores_and_winners zeroModel (by decide!)⟩

/-! ## C2 -/

theorem effectiveWeight_scale (c : ℚ) (f : Factor) :
    effectiveWeight { f with weight := c * f.weight } = c * effectiveWeight f := by
  simp [effectiveWeight, mul_assoc]

theorem totalWeight_scale (c : ℚ) (m : Model) :
    totalWeight (scaleWeights c m) = c * totalWeight m := by
  rw [totalWeight_eq, totalWeight_eq]
  have h : ((scaleWeights c m).factors.map effectiveWeight).sum
      = c * (m.factors.map effectiveWeight).sum := by
    simp only [scaleWeights, List.map_map]
    rw [← List.sum_map_mul_left]
    congr 1
    apply List.map_congr_left
    intro f _
    simp [effectiveWeight, mul_assoc]
  rw [h]
  simp [scaleWeights, effectiveBias, mul_add, mul_assoc]

theorem weightedSum_scale (c : ℚ) (m : Model) (rid : String) :
    weightedSum (scaleWeights c m).factors rid = c * weightedSum m.factors rid := by
  rw [weightedSum_eq, weightedSum_eq]
  simp only [scaleWeights, List.map_map]
  rw [← List.sum_map_mul_left]
  congr 1
  apply List.map_congr_left
  intro f _
  simp [effectiveWeight, mul_assoc]

theorem scoreOf_scale (c : ℚ) (hc : c ≠ 0) (m : Model) (rid : String) :
    scoreOf (scaleWeights c m) rid = scoreOf m rid := by
  unfold scoreOf
  rw [totalWeight_scale, weightedSum_scale]
  by_cases h0 : totalWeight m = 0
  · simp [h0]
  · have hc0 : c * totalWeight m ≠ 0 := mul_ne_zero hc h0
    have hb : effectiveBias (scaleWeights c m).bias = c * effectiveBias m.bias := by
      simp [scaleWeights, effectiveBias, mul_assoc]
    have ht : (scaleWeights c m).bias.targetId = m.bias.targetId := rfl
    simp only [h0, hc0, if_false, hb, ht]
    split
    · rw [mul_assoc, ← mul_add, mul_div_mul_left _ _ hc]
    · rw [mul_div_mul_left _ _ hc]

/-- C2: multiplying every factor weight and the bias strength by 2 (multipliers, scores
and bias target unchanged) leaves the object returned by `computeScores` unchanged. -/
theorem computeScores_double (m : Model) :
    computeScores (scaleWeights 2 m) = computeScores m := by
  unfold computeScores
  have hr : (scaleWeights 2 m).restaurants = m.restaurants := rfl
  rw [hr]
  have hf : (fun (scores : Obj) (r : Restaurant) => scores.set r.id (scoreOf (scaleWeights 2 m) r.id))
      = (fun (scores : Obj) (r : Restaurant) => scores.set r.id (scoreOf m r.id)) := by
    funext scores r
    rw [scoreOf_scale 2 (by norm_num)]
  rw [hf]

/-! ## Winners: the running maximum -/

theorem foldl_max_ge_init (scores : Obj) (ks : List String) (a : ℚ) :
    a ≤ ks.foldl (fun mx id => match scores.get id with
      | some s => if s > mx then s else mx
      | none => mx) a := by
  induction ks generalizing a with
  | nil => simp
  | cons k ks ih =>
    rw [List.foldl_cons]
    refine le_trans ?_ (ih _)
    cases hk : scores.get k with
    | none => simp
    | some s =>
      simp only
      split
      · exact le_of_lt (by assumption)
      · exact le_refl _

theorem foldl_max_ge_mem (scores : Obj) (ks : List String) (a : ℚ) (k : String) (s : ℚ)
    (hk : k ∈ ks) (hs : scores.get k = some s) :
    s ≤ ks.foldl (fun mx id => match scores.get id with
      | some s => if s > mx then s else mx
      | none => mx) a := by
  induction ks generalizing a with
  | nil => cases hk
  | cons k₀ ks ih =>
    rw [List.foldl_cons]
    rcases List.mem_cons.mp hk with h | h
    · subst h
      refine le_trans ?_ (foldl_max_ge_init scores ks _)
      simp only [hs]
      split
      · exact le_refl _
      · exact not_lt.mp (by assumption)
    · exact ih _ h

theorem foldl_max_attained (scores : Obj) (ks : List String) (a : ℚ) :
    ks.foldl (fun mx id => match scores.get id with
      | some s => if s > mx then s else mx
      | none => mx) a = a ∨
    ∃ k ∈ ks, scores.get k = some (ks.foldl (fun mx id => match scores.get id with
      | some s => if s > mx then s else mx
      | none => mx) a) := by
  induction ks generalizing a with
  | nil => simp
  | cons k₀ ks ih =>
    rw [List.foldl_cons]
    cases hk : scores.get k₀ with
    | none =>
      simp only
      rcases ih a with h | ⟨k, hk', hs⟩
      · exact Or.inl h
      · exact Or.inr ⟨k, List.mem_cons_of_mem _ hk', hs⟩
    | some s =>
      simp only
      split
      · rcases ih s with h | ⟨k, hk', hs⟩
        · exact Or.inr ⟨k₀, List.mem_cons_self _ _, by rw [h]; exact hk⟩
        · exact Or.inr ⟨k, List.mem_cons_of_mem _ hk', hs⟩
      · rcases ih a with h | ⟨k, hk', hs⟩
        · exact Or.inl h
        · exact Or.inr ⟨k, List.mem_cons_of_mem _ hk', hs⟩

theorem maxScore_eq_of_isMax (scores : Obj) (M : ℚ) (hM : IsMaxScore scores M)
    (hge : -1 ≤ M) : maxScore scores = M := by
  obtain ⟨⟨k, hk⟩, hle⟩ := hM
  have hmem : k ∈ Obj.keys scores := (obj_mem_keys_iff scores k).mpr ⟨M, hk⟩
  have h1 : M ≤ maxScore scores := foldl_max_ge_mem scores _ (-1) k M hmem hk
  have h2 : maxScore scores ≤ M := by
    rcases foldl_max_attained scores (Obj.keys scores) (-1) with h | ⟨k', _, hs⟩
    · unfold maxScore
      rw [h]
      exact hge
    · exact hle k' _ hs
  exact le_antisymm h2 h1

/-! ## Scoring: two options -/

theorem isMaxScore_pair (a b : String) (x y : ℚ) (hab : a ≠ b) :
    IsMaxScore [(a, x), (b, y)] (max x y) := by
  constructor
  · rcases le_total x y with h | h
    · exact ⟨b, by simp [Obj.get, hab, max_eq_right h]⟩
    · exact ⟨a, by simp [Obj.get, max_eq_left h]⟩
  · intro k s hk
    simp only [Obj.get] at hk
    split_ifs at hk
    · cases hk; exact le_max_left _ _
    · cases hk; exact le_max_right _ _

/-! ## Scoring: bounds in exact arithmetic -/

theorem orZero_get_bounds (o : Obj) (k : String) (h : ∀ e ∈ o, 0 ≤ e.2 ∧ e.2 ≤ 10) :
    0 ≤ orZero (o.get k) ∧ orZero (o.get k) ≤ 10 := by
  cases hg : o.get k with
  | none => norm_num [orZero]
  | some s => exact h (k, s) (obj_get_mem o k s hg)

theorem weighted_bounds (fs : List Factor) (rid : String)
    (hw : ∀ f ∈ fs, 0 ≤ effectiveWeight f)
    (hs : ∀ f ∈ fs, 0 ≤ orZero (f.scores.get rid) ∧ orZero (f.scores.get rid) ≤ 10) :
    0 ≤ (fs.map (fun f => effectiveWeight f * orZero (f.scores.get rid))).sum ∧
    (fs.map (fun f => effectiveWeight f * orZero (f.scores.get rid))).sum
      ≤ 10 * (fs.map effectiveWeight).sum := by
  induction fs with
  | nil => simp
  | cons f fs ih =>
    have hf := hw f (List.mem_cons_self _ _)
    have hsf := hs f (List.mem_cons_self _ _)
    have ih' := ih (fun g hg => hw g (List.mem_cons_of_mem _ hg))
      (fun g hg => hs g (List.mem_cons_of_mem _ hg))
    simp only [List.map_cons, List.sum_cons]
    constructor
    · exact add_nonneg (mul_nonneg hf hsf.1) ih'.1
    · have : effectiveWeight f * orZero (f.scores.get rid) ≤ effectiveWeight f * 10 :=
        mul_le_mul_of_nonneg_left hsf.2 hf
      linarith [ih'.2]

/-! ## C7 -/

theorem not_mem_keys_delete (o : Obj) (k : String) : k ∉ (o.delete k).keys := by
  intro h
  obtain ⟨v, hv⟩ := (obj_mem_keys_iff _ _).mp h
  rw [obj_get_delete_self] at hv
  cases hv

/-- C7: after the remove-restaurant operation on `rid`, no option has id `rid`, no
factor's scores object has the key `rid`, every other option is still present, and every
factor keeps its id, name, weight, multiplier and its score entry for every other id. -/
theorem removeRestaurant_purges (m : Model) (rid : String) :
    (∀ r ∈ (removeRestaurant m rid).restaurants, r.id ≠ rid) ∧
    (∀ f ∈ (removeRestaurant m rid).factors, rid ∉ f.scores.keys ∧ f.scores.get rid = none) ∧
    (∀ r ∈ m.restaurants, r.id ≠ rid → r ∈ (removeRestaurant m rid).restaurants) ∧
    (removeRestaurant m rid).bias = m.bias ∧
    List.Forall₂
      (fun f f' => f'.id = f.id ∧ f'.name = f.name ∧ f'.weight = f.weight ∧
        f'.multiplier = f.multiplier ∧ ∀ k, k ≠ rid → f'.scores.get k = f.scores.get k)
      m.factors (removeRestaurant m rid).factors := by
  refine ⟨?_, ?_, ?_, rfl, ?_⟩
  · intro r hr
    simp only [removeRestaurant, List.mem_filter, decide_eq_true_eq] at hr
    exact hr.2
  · intro f hf
    simp only [removeRestaurant, List.mem_map] at hf
    obtain ⟨f₀, _, rfl⟩ := hf
    exact ⟨not_mem_keys_delete _ _, obj_get_delete_self _ _⟩
  · intro r hr hne
    simp only [removeRestaurant, List.mem_filter, decide_eq_true_eq]
    exact ⟨hr, hne⟩
  · simp only [removeRestaurant]
    rw [List.forall₂_map_right_iff]
    apply List.forall₂_same.mpr
    intro f _
    exact ⟨rfl, rfl, rfl, rfl, fun k hk => obj_get_delete_ne _ hk⟩

/-! ## Mutation handlers: stored scores -/

theorem clampScore_ok (x : Parsed) : ScoreOk (clampScore x) := by
  unfold ScoreOk
  cases x with
  | num q =>
    simp only [clampScore]
    constructor
    · exact le_max_left _ _
    · exact max_le (by norm_num) (min_le_left _ _)
  | nan => norm_num [clampScore]
  | posInf => norm_num [clampScore]
  | negInf => norm_num [clampScore]

theorem mem_obj_set (o : Obj) (k : String) (v : ℚ) (e : String × ℚ) (h : e ∈ o.set k v) :
    e = (k, v) ∨ e ∈ o := by
  induction o with
  | nil =>
    simp only [Obj.set, List.mem_singleton] at h
    exact Or.inl h
  | cons e₀ rest ih =>
    obtain ⟨k₀, v₀⟩ := e₀
    by_cases h₀ : k₀ = k
    · subst h₀
      simp only [Obj.set, if_true, List.mem_cons] at h
      rcases h with h | h
      · exact Or.inl h
      · exact Or.inr (List.mem_cons_of_mem _ h)
    · simp only [Obj.set, h₀, if_false, List.mem_cons] at h
      rcases h with h | h
      · exact Or.inr (by rw [h]; exact List.mem_cons_self _ _)
      · rcases ih h with h' | h'
        · exact Or.inl h'
        · exact Or.inr (List.mem_cons_of_mem _ h')

theorem lookup_updateFactor_same (id : String) (g : Factor → Factor)
    (hg : ∀ f, (g f).id = f.id) (fs : List Factor) :
    lookupFactor (updateFactor id g fs) id = (lookupFactor fs id).map g := by
  induction fs with
  | nil => simp [updateFactor, lookupFactor]
  | cons f fs ih =>
    by_cases h : f.id = id
    · simp [updateFactor, lookupFactor, h, hg]
    · simp only [lookupFactor] at ih
      simp [updateFactor, lookupFactor, h, ih]

theorem lookup_updateFactor_other (id fid : String) (hne : fid ≠ id) (g : Factor → Factor)
    (hg : ∀ f, (g f).id = f.id) (fs : List Factor) :
    lookupFactor (updateFactor id g fs) fid = lookupFactor fs fid := by
  induction fs with
  | nil => simp [updateFactor, lookupFactor]
  | cons f fs ih =>
    by_cases h : f.id = id
    · have h' : ¬ f.id = fid := fun h'' => hne (h''.symm.trans h)
      have hgf : ¬ (g f).id = fid := by rw [hg]; exact h'
      have hidf : ¬ id = fid := fun e => hne e.symm
      simp [updateFactor, lookupFactor, h, List.find?_cons, hgf, hidf]
    · simp only [lookupFactor] at ih
      by_cases h' : f.id = fid
      · simp [updateFactor, lookupFactor, h, List.find?_cons, h', hne]
      · simp [updateFactor, lookupFactor, h, h', ih]

theorem applyScoreInputs_stored (rid : String) (inputs : List (String × Parsed))
    (fs : List Factor) (fid : String) (f' : Factor)
    (h : lookupFactor (applyScoreInputs rid inputs fs) fid = some f') :
    (∃ x, (fid, x) ∈ inputs ∧ f'.scores.get rid = some (clampScore x)) ∨
    ((∀ x, (fid, x) ∉ inputs) ∧ lookupFactor fs fid = some f') := by
  induction inputs generalizing fs with
  | nil => exact Or.inr ⟨by simp, h⟩
  | cons i is ih =>
    simp only [applyScoreInputs, List.foldl_cons] at h
    rcases ih _ h with ⟨x, hx, hs⟩ | ⟨hno, hl⟩
    · exact Or.inl ⟨x, List.mem_cons_of_mem _ hx, hs⟩
    · by_cases hi : fid = i.1
      · rw [hi, lookup_updateFactor_same i.1
          (fun f => { f with scores := f.scores.set rid (clampScore i.2) }) (fun _ => rfl)] at hl
        cases hf : lookupFactor fs i.1 with
        | none => simp [hf] at hl
        | some f₀ =>
          simp only [hf, Option.map_some', Option.some.injEq] at hl
          refine Or.inl ⟨i.2, by rw [hi]; exact List.mem_cons_self _ _, ?_⟩
          rw [← hl]
          exact obj_get_set_self _ _ _
      · rw [lookup_updateFactor_other i.1 fid hi
          (fun f => { f with scores := f.scores.set rid (clampScore i.2) }) (fun _ => rfl)] at hl
        refine Or.inr ⟨?_, hl⟩
        intro x hx
        rcases List.mem_cons.mp hx with hx' | hx'
        · exact hi (by rw [← hx'])
        · exact hno x hx'

/-! ## C8 -/

theorem clampScore_num (q : ℚ) : clampScore (Parsed.num q) = max 0 (min 10 q) := by
  simp only [clampScore]
  split
  · rename_i h
    rw [h]
  · rfl

theorem slider_value_range (v : ℚ) (h : v ∈ sliderValues) : 0 ≤ v ∧ v ≤ 10 := by
  simp only [sliderValues, List.mem_cons, List.mem_singleton, List.mem_nil_iff, or_false] at h
  rcases h with h | h | h | h | h | h | h | h | h | h | h <;> subst h <;> norm_num

theorem collectScores_entries (inputs : List (String × Parsed)) (acc : Obj) :
    ∀ e ∈ inputs.foldl (fun scores input => scores.set input.1 (clampScore input.2)) acc,
      e ∈ acc ∨ ∃ x, (e.1, x) ∈ inputs ∧ e.2 = clampScore x := by
  induction inputs generalizing acc with
  | nil =>
    intro e he
    exact Or.inl he
  | cons i is ih =>
    intro e he
    rw [List.foldl_cons] at he
    rcases ih _ e he with h | ⟨x, hx, hex⟩
    · rcases mem_obj_set _ _ _ _ h with h' | h'
      · refine Or.inr ⟨i.2, ?_, ?_⟩
        · rw [h']
          exact List.mem_cons_self _ _
        · rw [h']
      · exact Or.inl h'
    · exact Or.inr ⟨x, List.mem_cons_of_mem _ hx, hex⟩

theorem applyScoreInputs_clamped (rid : String) (inputs : List (String × Parsed))
    (fs : List Factor) (fid : String) (f' : Factor)
    (h : lookupFactor (applyScoreInputs rid inputs fs) fid = some f')
    (hin : ∃ x, (fid, x) ∈ inputs) :
    ∃ x, (fid, x) ∈ inputs ∧ f'.scores.get rid = some (clampScore x) ∧
      ScoreOk (clampScore x) := by
  rcases applyScoreInputs_stored rid inputs fs fid f' h with ⟨x, hx, hs⟩ | ⟨hno, _⟩
  · exact ⟨x, hx, hs, clampScore_ok x⟩
  · obtain ⟨x, hx⟩ := hin
    exact absurd hx (hno x)

/-- C8: for every value the weight slider can deliver (`min="0" max="10"`) the weight
handler stores that value, which is in [0,10]; for every value of the bias slider (range
[0,10]) the bias-strength handler stores that value, which is in [0,10]; and for every
parsed score input (a number, NaN or an infinity) the add-factor, add-restaurant and
edit-restaurant handlers store `Math.max(0, Math.min(10, value || 0))`, which is in
[0,10]: `max 0 (min 10 q)` for a number `q`, 0 for NaN and for `-Infinity`, 10 for
`Infinity`. -/
theorem stored_values_in_range (m : Model) (idCounter : Nat) (name rid id : String)
    (inputs : List (String × Parsed)) (value strength : ℚ) (hv : value ∈ sliderValues)
    (hs : BiasSliderValue strength) :
    (∀ f', lookupFactor (setWeight m id value).factors id = some f' →
      f'.weight = value ∧ 0 ≤ f'.weight ∧ f'.weight ≤ 10) ∧
    ((lookupFactor (setWeight m id value).factors id).isSome
      = (lookupFactor m.factors id).isSome) ∧
    ((setBiasStrength m strength).bias.strength = strength ∧
      0 ≤ (setBiasStrength m strength).bias.strength ∧
      (setBiasStrength m strength).bias.strength ≤ 10) ∧
    (∃ nf, (addFactor m idCounter name inputs).1.factors = m.factors ++ [nf] ∧
      nf.weight = 5 ∧ nf.multiplier = some 1 ∧
      ∀ e ∈ nf.scores, (∃ x, (e.1, x) ∈ inputs ∧ e.2 = clampScore x) ∧ ScoreOk e.2) ∧
    (∀ fid f', lookupFactor (addRestaurant m idCounter name inputs).1.factors fid = some f' →
      (∃ x, (fid, x) ∈ inputs) →
      ∃ x, (fid, x) ∈ inputs ∧ f'.scores.get (genId "r" idCounter).1 = some (clampScore x) ∧
        ScoreOk (clampScore x)) ∧
    ((∃ r ∈ m.restaurants, r.id = rid) →
      ∀ fid f', lookupFactor (editRestaurant m rid name inputs).factors fid = some f' →
        (∃ x, (fid, x) ∈ inputs) →
        ∃ x, (fid, x) ∈ inputs ∧ f'.scores.get rid = some (clampScore x) ∧
          ScoreOk (clampScore x)) ∧
    ((∀ q, clampScore (Parsed.num q) = max 0 (min 10 q)) ∧ clampScore Parsed.nan = 0 ∧
      clampScore Parsed.posInf = 10 ∧ clampScore Parsed.negInf = 0) := by
  have hvr := slider_value_range value hv
  have hlook : lookupFactor (setWeight m id value).factors id
      = (lookupFactor m.factors id).map (fun f => { f with weight := value }) := by
    simp only [setWeight]
    exact lookup_updateFactor_same id (fun f => { f with weight := value }) (fun _ => rfl) _
  refine ⟨?_, ?_, ⟨rfl, hs.1, hs.2⟩, ?_, ?_, ?_, ?_⟩
  · intro f' hf'
    rw [hlook] at hf'
    cases hl : lookupFactor m.factors id with
    | none => simp [hl] at hf'
    | some f₀ =>
      simp only [hl, Option.map_some', Option.some.injEq] at hf'
      rw [← hf']
      exact ⟨rfl, hvr.1, hvr.2⟩
  · rw [hlook]
    cases lookupFactor m.factors id <;> rfl
  · refine ⟨_, rfl, rfl, rfl, ?_⟩
    intro e he
    rcases collectScores_entries inputs [] e he with h | ⟨x, hx, hex⟩
    · cases h
    · exact ⟨⟨x, hx, hex⟩, by rw [hex]; exact clampScore_ok x⟩
  · intro fid f' h hin
    exact applyScoreInputs_clamped _ inputs m.factors fid f' h hin
  · rintro ⟨r, hr, hrid⟩ fid f' h hin
    have hany : m.restaurants.any (fun r => decide (r.id = rid)) = true := by
      rw [List.any_eq_true]
      exact ⟨r, hr, by simpa using hrid⟩
    simp only [editRestaurant, hany, if_true] at h
    exact applyScoreInputs_clamped _ inputs m.factors fid f' h hin
  · exact ⟨clampScore_num, by norm_num [clampScore], by norm_num [clampScore],
      by norm_num [clampScore]⟩

theorem stored_values_in_range_witness :
    ((7 : ℚ) ∈ sliderValues ∧ BiasSliderValue (5/2)) ∧
    (lookupFactor (setWeight initialModel "f1" 7).factors "f1").map (fun f => f.weight)
      = some 7 ∧
    (setBiasStrength initialModel (5/2)).bias.strength = 5/2 ∧
    (lookupFactor
        (editRestaurant initialModel "r2" "" [("f1", Parsed.num 42), ("f2", Parsed.nan)]).factors
        "f1").map (fun f => f.scores.get "r2") = some (some 10) ∧
    (lookupFactor
        (editRestaurant initialModel "r2" "" [("f1", Parsed.num 42), ("f2", Parsed.nan)]).factors
        "f2").map (fun f => f.scores.get "r2") = some (some 0) ∧
    (∀ f', lookupFactor
        (editRestaurant initialModel "r2" "" [("f1", Parsed.num 42), ("f2", Parsed.nan)]).factors
        "f2" = some f' → ∃ x, ("f2", x) ∈ [("f1", Parsed.num 42), ("f2", Parsed.nan)] ∧
          f'.scores.get "r2" = some (clampScore x) ∧ ScoreOk (clampScore x)) ∧
    (∀ f', lookupFactor (setWeight initialModel "f1" 7).factors "f1" = some f' →
      f'.weight = 7 ∧ 0 ≤ f'.weight ∧ f'.weight ≤ 10) := by
  have hb : BiasSliderValue (5/2) := ⟨by norm_num, by norm_num⟩
  have h := stored_values_in_range initialModel 100 "" "r2" "f1"
    [("f1", Parsed.num 42), ("f2", Parsed.nan)] 7 (5/2) (by decide!) hb
  have hex : ∃ r ∈ initialModel.restaurants, r.id = "r2" := ⟨⟨"r2", "DJ's Dugout"⟩, by decide!, rfl⟩
  refine ⟨⟨by decide!, hb⟩, by decide!, rfl, by decide!, by decide!, ?_, h.1⟩
  intro f' hf'
  exact h.2.2.2.2.2.1 hex "f2" f' hf' ⟨Parsed.nan, by simp⟩

/-! ## Particles: spawning only appends -/

theorem appends_refl (Q : Particle → Prop) (s : Sim) : Appends Q s s :=
  ⟨[], by simp, by simp⟩

theorem appends_trans (Q : Particle → Prop) (s₁ s₂ s₃ : Sim) (h₁ : Appends Q s₁ s₂)
    (h₂ : Appends Q s₂ s₃) : Appends Q s₁ s₃ := by
  obtain ⟨n₁, e₁, q₁⟩ := h₁
  obtain ⟨n₂, e₂, q₂⟩ := h₂
  refine ⟨n₁ ++ n₂, by rw [e₂, e₁, List.append_assoc], ?_⟩
  intro p hp
  rcases List.mem_append.mp hp with h | h
  · exact q₁ p h
  · exact q₂ p h

theorem appends_spawnIf (Q : Particle → Prop) (rand : Nat → ℚ) (rate : ℚ) (p : Particle)
    (s : Sim) (hp : Q p) : Appends Q s (spawnIf rand rate p s) := by
  unfold spawnIf
  split
  · exact ⟨[p], rfl, by simpa using hp⟩
  · exact ⟨[], by simp, by simp⟩

theorem appends_foldl {α : Type} (Q : Particle → Prop) (step : Sim → α → Sim) (l : List α)
    (h : ∀ s, ∀ x ∈ l, Appends Q s (step s x)) (s : Sim) : Appends Q s (l.foldl step s) := by
  induction l generalizing s with
  | nil => exact appends_refl Q s
  | cons x xs ih =>
    rw [List.foldl_cons]
    exact appends_trans Q _ _ _ (h s x (List.mem_cons_self _ _))
      (ih (fun s y hy => h s y (List.mem_cons_of_mem _ hy)) _)

theorem appends_spawnForFactor (m : Model) (rand : Nat → ℚ) (s : Sim) (factor : Factor)
    (hf : factor ∈ m.factors) : Appends (Fresh m) s (spawnForFactor m rand s factor) := by
  unfold spawnForFactor
  simp only
  split
  · exact appends_refl _ s
  · have hew : NonNegModel m → 0 ≤ effectiveWeight factor := fun hn =>
      mul_nonneg (hn.1 factor hf).1 (orOne_nonneg _ (hn.1 factor hf).2.1)
    refine appends_trans _ _ _ _ (appends_spawnIf _ _ _ _ _ ?_) (appends_foldl _ _ _ ?_ _)
    · refine ⟨rfl, fun hn => ?_⟩
      have := hew hn
      simp only [sourceParticle]
      linarith
    · intro s' r _
      unfold spawnToRestaurant
      refine appends_spawnIf _ _ _ _ _ ⟨rfl, fun hn => ?_⟩
      have h1 := hew hn
      have h2 := orZero_get_nonneg factor.scores r.id (hn.1 factor hf).2.2
      have h3 := mul_nonneg h1 h2
      simp only [targetParticle]
      have : 0 ≤ effectiveWeight factor * orZero (factor.scores.get r.id) / 100 * (4 / 1000) := by
        positivity
      linarith

theorem appends_spawnParticles (m : Model) (rand : Nat → ℚ) (s : Sim) :
    Appends (Fresh m) s (spawnParticles m rand s) := by
  unfold spawnParticles
  exact appends_foldl _ _ _ (fun s f hf => appends_spawnForFactor m rand s f hf) s

theorem appends_spawnBiasParticles (m : Model) (rand : Nat → ℚ) (s : Sim) :
    Appends (Fresh m) s (spawnBiasParticles m rand s) := by
  unfold spawnBiasParticles
  simp only
  split
  · exact appends_refl _ s
  · have heb : NonNegModel m → 0 ≤ effectiveBias m.bias := fun hn =>
      mul_nonneg hn.2.1 (orOne_nonneg _ hn.2.2)
    refine appends_trans _ _ _ _ (appends_spawnIf _ _ _ _ _ ?_) (appends_spawnIf _ _ _ _ _ ?_)
    · refine ⟨rfl, fun hn => ?_⟩
      have := heb hn
      simp only [sourceParticle]
      linarith
    · refine ⟨rfl, fun hn => ?_⟩
      have := heb hn
      simp only [targetParticle]
      have : 0 ≤ effectiveBias m.bias * 10 / 100 * (4 / 1000) := by positivity
      linarith

theorem appends_spawn_all (m : Model) (rand : Nat → ℚ) (s : Sim) :
    Appends (Fresh m) s (spawnBiasParticles m rand (spawnParticles m rand s)) :=
  appends_trans _ _ _ _ (appends_spawnParticles m rand s) (appends_spawnBiasParticles m rand _)

/-! ## Particles: the drawing loop -/

theorem drawParticles_fst (m : Model) (a : Anchors) (ps : List Particle) :
    (drawParticles m a ps).1
      = ps.filterMap (fun p => (drawParticle a (getWinnerIds m (computeScores m)) p).1) := by
  induction ps with
  | nil => rfl
  | cons p ps ih =>
    have hstep : (drawParticles m a (p :: ps)).1
        = (drawParticle a (getWinnerIds m (computeScores m)) p).1.toList
          ++ (drawParticles m a ps).1 := rfl
    rw [hstep, ih, List.filterMap_cons]
    cases (drawParticle a (getWinnerIds m (computeScores m)) p).1 <;> rfl

theorem drawParticles_snd (m : Model) (a : Anchors) (ps : List Particle) :
    (drawParticles m a ps).2
      = ps.reverse.filterMap (fun p => (drawParticle a (getWinnerIds m (computeScores m)) p).2) := by
  induction ps with
  | nil => rfl
  | cons p ps ih =>
    have hstep : (drawParticles m a (p :: ps)).2
        = (drawParticles m a ps).2
          ++ (drawParticle a (getWinnerIds m (computeScores m)) p).2.toList := rfl
    rw [hstep, ih, List.reverse_cons, List.filterMap_append]
    congr 1

theorem drawParticle_cases (a : Anchors) (w : List String) (p : Particle) :
    drawParticle a w p = (none, none) ∨
    ∃ d, drawParticle a w p = (some (advance p), some d) ∧ d.t = (advance p).progress ∧
      (advance p).progress < 1 := by
  unfold drawParticle
  simp only
  split
  · exact Or.inl rfl
  · rename_i hlt
    have hlt' : (advance p).progress < 1 := not_le.mp hlt
    split
    · split
      · exact Or.inl rfl
      · exact Or.inr ⟨_, rfl, rfl, hlt'⟩
    · split
      · exact Or.inl rfl
      · exact Or.inr ⟨_, rfl, rfl, hlt'⟩

theorem drawParticle_kept (a : Anchors) (w : List String) (p q : Particle)
    (h : (drawParticle a w p).1 = some q) : q = advance p ∧ q.progress < 1 := by
  rcases drawParticle_cases a w p with h0 | ⟨d, hd, _, hlt⟩
  · rw [h0] at h
    cases h
  · rw [hd] at h
    cases h
    exact ⟨rfl, hlt⟩

theorem drawParticle_drawn (a : Anchors) (w : List String) (p : Particle) (d : Draw)
    (h : (drawParticle a w p).2 = some d) :
    d.t = (advance p).progress ∧ d.t < 1 ∧ (drawParticle a w p).1 = some (advance p) := by
  rcases drawParticle_cases a w p with h0 | ⟨d', hd, ht, hlt⟩
  · rw [h0] at h
    cases h
  · rw [hd] at h ⊢
    cases h
    exact ⟨ht, by rw [ht]; exact hlt, rfl⟩

theorem drawParticle_consumed (a : Anchors) (w : List String) (p : Particle)
    (h : 1 ≤ p.progress + p.speed) : drawParticle a w p = (none, none) := by
  unfold drawParticle
  have h' : (advance p).progress ≥ 1 := h
  simp only [h', if_true]

/-! ## C9 -/

theorem reachable_invariant (ps : List Particle) (h : Reachable ps) :
    ∀ p ∈ ps, 0 ≤ p.speed ∧ p.progress < 1 := by
  induction h with
  | empty => simp
  | tick m a rand s _ hn ih =>
    intro q hq
    simp only [animate, drawParticles_fst, List.mem_filterMap] at hq
    obtain ⟨p, hp, hkept⟩ := hq
    obtain ⟨hq1, hq2⟩ := drawParticle_kept _ _ _ _ hkept
    refine ⟨?_, hq2⟩
    obtain ⟨new, hnew, hfresh⟩ := appends_spawn_all m rand s
    rw [hnew] at hp
    have hsp : 0 ≤ p.speed := by
      rcases List.mem_append.mp hp with h | h
      · exact (ih p h).1
      · have := (hfresh p h).2 hn
        linarith
    rw [hq1]
    exact hsp

/-- C9: for a particle collection reachable from the empty one by frames over
non-negative models, one `drawParticles` step keeps only particles advanced by exactly
their speed (so progress never decreases), removes without drawing every particle whose
advanced progress is at least 1, and every particle drawn or left in the collection
(before or after the step) has progress below 1. -/
theorem drawParticles_progress (ps : List Particle) (hr : Reachable ps) (m : Model)
    (a : Anchors) :
    (∀ q ∈ (drawParticles m a ps).1, q.progress < 1 ∧
      ∃ p ∈ ps, q = advance p ∧ q.progress = p.progress + p.speed ∧ p.progress ≤ q.progress) ∧
    (∀ d ∈ (drawParticles m a ps).2, d.t < 1 ∧
      ∃ p ∈ ps, d.t = p.progress + p.speed ∧ p.progress ≤ d.t) ∧
    (∀ p ∈ ps, 1 ≤ p.progress + p.speed →
      drawParticle a (getWinnerIds m (computeScores m)) p = (none, none)) ∧
    (∀ p ∈ ps, p.progress < 1) := by
  have hinv := reachable_invariant ps hr
  refine ⟨?_, ?_, ?_, fun p hp => (hinv p hp).2⟩
  · intro q hq
    simp only [drawParticles_fst, List.mem_filterMap] at hq
    obtain ⟨p, hp, hkept⟩ := hq
    obtain ⟨hq1, hq2⟩ := drawParticle_kept _ _ _ _ hkept
    refine ⟨hq2, p, hp, hq1, by rw [hq1]; rfl, ?_⟩
    rw [hq1]
    have := (hinv p hp).1
    simp only [advance]
    linarith
  · intro d hd
    simp only [drawParticles_snd, List.mem_filterMap, List.mem_reverse] at hd
    obtain ⟨p, hp, hdrawn⟩ := hd
    obtain ⟨ht, hlt, _⟩ := drawParticle_drawn _ _ _ _ hdrawn
    refine ⟨hlt, p, hp, ht, ?_⟩
    rw [ht]
    have := (hinv p hp).1
    simp only [advance]
    linarith
  · intro p _ hge
    exact drawParticle_consumed _ _ _ hge

theorem drawParticles_progress_witness :
    Reachable (animate initialModel sampleAnchors (fun _ => 0) ⟨[], 0⟩).1.particles ∧
    (animate initialModel sampleAnchors (fun _ => 0) ⟨[], 0⟩).1.particles.length = 17 ∧
    (∀ q ∈ (drawParticles initialModel sampleAnchors
        (animate initialModel sampleAnchors (fun _ => 0) ⟨[], 0⟩).1.particles).1,
      q.progress < 1) := by
  have hr : Reachable (animate initialModel sampleAnchors (fun _ => 0) ⟨[], 0⟩).1.particles :=
    Reachable.tick initialModel sampleAnchors (fun _ => 0) ⟨[], 0⟩ Reachable.empty (by decide!)
  exact ⟨hr, by decide!,
    fun q hq => ((drawParticles_progress _ hr initialModel sampleAnchors).1 q hq).1⟩

/-! ## C10 -/

/-- C10, as stated, fails: in the first frame of the initial model with every random
draw a hit and every anchor present, 17 particles are spawned (all with progress 0) and
17 dots are drawn, none of them at `t = 0`: `drawParticles` advances each particle by its
speed before drawing it. -/
theorem spawned_particles_not_drawn_at_zero :
    (spawnBiasParticles initialModel (fun _ => 0)
        (spawnParticles initialModel (fun _ => 0) ⟨[], 0⟩)).particles.length = 17 ∧
    (∀ p ∈ (spawnBiasParticles initialModel (fun _ => 0)
        (spawnParticles initialModel (fun _ => 0) ⟨[], 0⟩)).particles, p.progress = 0) ∧
    (animate initialModel sampleAnchors (fun _ => 0) ⟨[], 0⟩).2.length = 17 ∧
    (∀ d ∈ (animate initialModel sampleAnchors (fun _ => 0) ⟨[], 0⟩).2, 0 < d.t) ∧
    ¬ (∃ d ∈ (animate initialModel sampleAnchors (fun _ => 0) ⟨[], 0⟩).2, d.t = 0) := by
  refine ⟨by decide!, by decide!, by decide!, by decide!, by decide!⟩

/-- C10 (amended): within one frame the particles spawned by `spawnParticles` and
`spawnBiasParticles` are appended with progress 0 and are processed by `drawParticles`
of that same frame, which advances a particle before drawing it: a newly spawned particle
that is drawn is drawn at `t` equal to its speed (at least 0.003 for a non-negative
model), not at `t = 0`. -/
theorem spawned_particles_drawn_at_speed (m : Model) (a : Anchors) (rand : Nat → ℚ)
    (s : Sim) :
    ∃ new,
      (spawnBiasParticles m rand (spawnParticles m rand s)).particles = s.particles ++ new ∧
      (∀ p ∈ new, p.progress = 0) ∧
      (animate m a rand s).2
        = (s.particles ++ new).reverse.filterMap
            (fun p => (drawParticle a (getWinnerIds m (computeScores m)) p).2) ∧
      (∀ p ∈ new, ∀ d, (drawParticle a (getWinnerIds m (computeScores m)) p).2 = some d →
        d.t = p.speed ∧ (NonNegModel m → 3/1000 ≤ d.t)) := by
  obtain ⟨new, hnew, hfresh⟩ := appends_spawn_all m rand s
  refine ⟨new, hnew, fun p hp => (hfresh p hp).1, ?_, ?_⟩
  · simp only [animate, drawParticles_snd, hnew]
  · intro p hp d hd
    obtain ⟨ht, _, _⟩ := drawParticle_drawn _ _ _ _ hd
    have h0 := (hfresh p hp).1
    have ht' : d.t = p.speed := by
      rw [ht]
      simp only [advance, h0, zero_add]
    exact ⟨ht', fun hn => by rw [ht']; exact (hfresh p hp).2 hn⟩

theorem spawned_particles_drawn_at_speed_witness :
    NonNegModel initialModel ∧
    ∃ new,
      (spawnBiasParticles initialModel (fun _ => 0)
        (spawnParticles initialModel (fun _ => 0) ⟨[], 0⟩)).particles = [] ++ new ∧
      (∀ p ∈ new, p.progress = 0) ∧
      (∀ p ∈ new, ∀ d,
        (drawParticle sampleAnchors (getWinnerIds initialModel (computeScores initialModel)) p).2
          = some d → d.t = p.speed ∧ (3 : ℚ)/1000 ≤ d.t) := by
  obtain ⟨new, h1, h2, _, h4⟩ :=
    spawned_particles_drawn_at_speed initialModel sampleAnchors (fun _ => 0) ⟨[], 0⟩
  have hn : NonNegModel initialModel := by decide!
  exact ⟨hn, new, h1, h2, fun p hp d hd => ⟨(h4 p hp d hd).1, (h4 p hp d hd).2 hn⟩⟩

/-! ## C11 -/

theorem foldl_spawnToRestaurant (rand : Nat → ℚ) (f : Factor) (rs : List Restaurant) (s : Sim) :
    rs.foldl (spawnToRestaurant rand f (effectiveWeight f)) s
      = { particles := s.particles ++ specPairSpawns rand f s.cursor rs,
          cursor := s.cursor + rs.length } := by
  induction rs generalizing s with
  | nil => simp [specPairSpawns]
  | cons o rs ih =>
    rw [List.foldl_cons, ih]
    simp only [spawnToRestaurant, spawnIf, targetParticle, specPairSpawns, specPairRate,
      specPairParticle, List.length_cons]
    split <;> simp [Nat.add_comm, Nat.add_left_comm]

theorem spawnForFactor_spec (m : Model) (rand : Nat → ℚ) (s : Sim) (f : Factor)
    (hew : effectiveWeight f ≠ 0) :
    spawnForFactor m rand s f
      = { particles := s.particles ++ (specSourceSpawn rand f s.cursor
            ++ specPairSpawns rand f (s.cursor + 1) m.restaurants),
          cursor := s.cursor + (1 + m.restaurants.length) } := by
  unfold spawnForFactor
  simp only [hew, if_false]
  rw [foldl_spawnToRestaurant]
  simp only [spawnIf, specSourceSpawn]
  split <;> simp [Nat.add_assoc]

theorem foldl_spawnForFactor (m : Model) (rand : Nat → ℚ) (fs : List Factor) (s : Sim) :
    fs.foldl (spawnForFactor m rand) s
      = { particles := s.particles ++ specFactorSpawns m rand s.cursor fs,
          cursor := s.cursor + specDraws m fs } := by
  induction fs generalizing s with
  | nil => simp [specFactorSpawns, specDraws]
  | cons f fs ih =>
    rw [List.foldl_cons, ih]
    by_cases hew : effectiveWeight f = 0
    · have h0 : spawnForFactor m rand s f = s := by simp [spawnForFactor, hew]
      simp [h0, specFactorSpawns, specDraws, hew]
    · rw [spawnForFactor_spec m rand s f hew]
      simp [specFactorSpawns, specDraws, hew, Nat.add_assoc]

theorem specPairSpawns_append (rand : Nat → ℚ) (f : Factor) (c : Nat)
    (rpre rpost : List Restaurant) (o : Restaurant) :
    specPairSpawns rand f c (rpre ++ o :: rpost)
      = specPairSpawns rand f c rpre
        ++ ((if rand (c + rpre.length) < specPairRate f o then [specPairParticle f o] else [])
          ++ specPairSpawns rand f (c + rpre.length + 1) rpost) := by
  induction rpre generalizing c with
  | nil => simp [specPairSpawns]
  | cons r rs ih =>
    have e1 : c + (rs.length + 1) = c + 1 + rs.length := by omega
    rw [List.cons_append]
    simp only [specPairSpawns, List.length_cons, List.append_assoc, e1]
    rw [ih (c + 1)]

theorem specFactorSpawns_append (m : Model) (rand : Nat → ℚ) (c : Nat)
    (pre post : List Factor) (f : Factor) (hew : effectiveWeight f ≠ 0) :
    specFactorSpawns m rand c (pre ++ f :: post)
      = specFactorSpawns m rand c pre
        ++ (specSourceSpawn rand f (c + specDraws m pre)
          ++ (specPairSpawns rand f (c + specDraws m pre + 1) m.restaurants
            ++ specFactorSpawns m rand
                (c + specDraws m pre + (1 + m.restaurants.length)) post)) := by
  induction pre generalizing c with
  | nil => simp [specFactorSpawns, specDraws, hew]
  | cons g gs ih =>
    by_cases hg : effectiveWeight g = 0
    · rw [List.cons_append]
      simp only [specFactorSpawns, specDraws, hg, if_true, zero_add]
      exact ih c
    · have e : c + (1 + m.restaurants.length) + specDraws m gs
          = c + (1 + m.restaurants.length + specDraws m gs) := by omega
      rw [List.cons_append]
      simp only [specFactorSpawns, specDraws, hg, if_false, List.append_assoc]
      rw [ih (c + (1 + m.restaurants.length)), e]

theorem specPairSpawns_congr (rand rand' : Nat → ℚ) (f : Factor) (c : Nat)
    (rs : List Restaurant) (h : ∀ i, c ≤ i → i < c + rs.length → rand' i = rand i) :
    specPairSpawns rand' f c rs = specPairSpawns rand f c rs := by
  induction rs generalizing c with
  | nil => rfl
  | cons o rs ih =>
    simp only [specPairSpawns]
    rw [h c (le_refl _) (by simp), ih (c + 1) (fun i h1 h2 =>
      h i (by omega) (by simp only [List.length_cons]; omega))]

theorem specSourceSpawn_congr (rand rand' : Nat → ℚ) (f : Factor) (c : Nat)
    (h : rand' c = rand c) : specSourceSpawn rand' f c = specSourceSpawn rand f c := by
  simp only [specSourceSpawn, h]

theorem specFactorSpawns_congr (m : Model) (rand rand' : Nat → ℚ) (c : Nat)
    (fs : List Factor) (h : ∀ i, c ≤ i → i < c + specDraws m fs → rand' i = rand i) :
    specFactorSpawns m rand' c fs = specFactorSpawns m rand c fs := by
  induction fs generalizing c with
  | nil => rfl
  | cons f fs ih =>
    by_cases hew : effectiveWeight f = 0
    · simp only [specFactorSpawns, hew, if_true]
      exact ih c (fun i h1 h2 => h i h1 (by simp only [specDraws, hew, if_true]; omega))
    · simp only [specFactorSpawns, hew, if_false]
      have hd : specDraws m (f :: fs) = 1 + m.restaurants.length + specDraws m fs := by
        simp [specDraws, hew]
      rw [specSourceSpawn_congr rand rand' f c (h c (le_refl _) (by omega)),
        specPairSpawns_congr rand rand' f (c + 1) m.restaurants
          (fun i h1 h2 => h i (by omega) (by omega)),
        ih (c + (1 + m.restaurants.length)) (fun i h1 h2 => h i (by omega) (by omega))]

/-- C11: a factor of effective weight 0 makes no draw and pushes no particle. For a factor
`f` of non-zero effective weight `ew` and an option `o`, with
`signal = ew * (f.scores[o] ?? 0)`, the collection returned by `spawnParticles` is the
particles pushed before the pair, then the decision-to-option particle of `(f, o)` (progress
0, speed `0.003 + (signal/100) * 0.004`, opacity `0.15 + (signal/100) * 0.6`, size
`1.5 + (signal/100) * 2`) if and only if the draw `u` of the pair satisfies
`u < 0.002 + (signal/100) * 0.012`, then the particles pushed after it; the particles
before and after do not depend on `u`. -/
theorem spawnParticles_pair_rule (m : Model) (rand : Nat → ℚ) (s : Sim)
    (pre post : List Factor) (f : Factor) (rpre rpost : List Restaurant) (o : Restaurant)
    (hf : m.factors = pre ++ f :: post) (hr : m.restaurants = rpre ++ o :: rpost) :
    (effectiveWeight f = 0 → ∀ s', spawnForFactor m rand s' f = s') ∧
    (effectiveWeight f ≠ 0 →
      (spawnParticles m rand s).particles
        = specBefore m rand s pre f rpre
          ++ (if rand (pairDraw m s pre rpre)
                < 2/1000 + (effectiveWeight f * orZero (f.scores.get o.id) / 100) * (12/1000)
              then
                [{ factorId := f.id, restaurantId := some o.id, progress := 0,
                   speed := 3/1000
                     + (effectiveWeight f * orZero (f.scores.get o.id) / 100) * (4/1000),
                   opacity := 15/100
                     + (effectiveWeight f * orZero (f.scores.get o.id) / 100) * (6/10),
                   size := 3/2
                     + (effectiveWeight f * orZero (f.scores.get o.id) / 100) * 2 }]
              else [])
          ++ specAfter m rand s pre f rpre rpost post ∧
      (spawnParticles m rand s).cursor = s.cursor + specDraws m m.factors ∧
      ∀ rand' : Nat → ℚ, (∀ i, i ≠ pairDraw m s pre rpre → rand' i = rand i) →
        specBefore m rand' s pre f rpre = specBefore m rand s pre f rpre ∧
        specAfter m rand' s pre f rpre rpost post = specAfter m rand s pre f rpre rpost post) := by
  constructor
  · intro h0 s'
    simp [spawnForFactor, h0]
  · intro hew
    have hall := foldl_spawnForFactor m rand m.factors s
    refine ⟨?_, ?_, ?_⟩
    · have hp : (spawnParticles m rand s).particles
          = s.particles ++ specFactorSpawns m rand s.cursor m.factors := by
        unfold spawnParticles
        rw [hall]
      rw [hp, hf, specFactorSpawns_append m rand s.cursor pre post f hew]
      have hsplit := specPairSpawns_append rand f (s.cursor + specDraws m pre + 1) rpre rpost o
      rw [← hr] at hsplit
      rw [hsplit]
      have hlen : m.restaurants.length = rpre.length + 1 + rpost.length := by
        rw [hr]
        simp
        omega
      have e : s.cursor + specDraws m pre + (1 + m.restaurants.length)
          = s.cursor + specDraws m pre + 1 + rpre.length + 1 + rpost.length := by omega
      simp only [specBefore, specAfter, pairDraw, specPairRate, specPairParticle, e,
        List.append_assoc]
    · unfold spawnParticles
      rw [hall]
    · intro rand' hag
      constructor
      · simp only [specBefore]
        rw [specFactorSpawns_congr m rand rand' s.cursor pre
            (fun i h1 h2 => hag i (by simp only [pairDraw]; omega)),
          specSourceSpawn_congr rand rand' f _ (hag _ (by simp only [pairDraw]; omega)),
          specPairSpawns_congr rand rand' f _ rpre
            (fun i h1 h2 => hag i (by simp only [pairDraw]; omega))]
      · simp only [specAfter]
        rw [specPairSpawns_congr rand rand' f _ rpost (fun i h1 h2 => hag i (by omega)),
          specFactorSpawns_congr m rand rand' _ post (fun i h1 h2 => hag i (by omega))]

theorem spawnParticles_pair_rule_witness :
    effectiveWeight ⟨"f1", "Cost", 5, some 1, [("r1", 10), ("r2", 3)]⟩ ≠ 0 ∧
    pairDraw initialModel ⟨[], 0⟩ [] [⟨"r1", "Scott Cafe"⟩] = 2 ∧
    (spawnParticles initialModel (fun _ => 0) ⟨[], 0⟩).particles
      = specBefore initialModel (fun _ => 0) ⟨[], 0⟩ []
          ⟨"f1", "Cost", 5, some 1, [("r1", 10), ("r2", 3)]⟩ [⟨"r1", "Scott Cafe"⟩]
        ++ [⟨"f1", some "r2", 0, 9/2500, 6/25, 9/5⟩]
        ++ specAfter initialModel (fun _ => 0) ⟨[], 0⟩ []
          ⟨"f1", "Cost", 5, some 1, [("r1", 10), ("r2", 3)]⟩ [⟨"r1", "Scott Cafe"⟩] []
          (initialModel.factors.drop 1) ∧
    (spawnParticles initialModel missAtTwo ⟨[], 0⟩).particles
      = specBefore initialModel missAtTwo ⟨[], 0⟩ []
          ⟨"f1", "Cost", 5, some 1, [("r1", 10), ("r2", 3)]⟩ [⟨"r1", "Scott Cafe"⟩]
        ++ []
        ++ specAfter initialModel missAtTwo ⟨[], 0⟩ []
          ⟨"f1", "Cost", 5, some 1, [("r1", 10), ("r2", 3)]⟩ [⟨"r1", "Scott Cafe"⟩] []
          (initialModel.factors.drop 1) ∧
    (spawnParticles initialModel (fun _ => 0) ⟨[], 0⟩).particles.length = 15 ∧
    (spawnParticles initialModel missAtTwo ⟨[], 0⟩).particles.length = 14 := by
  have hne : effectiveWeight ⟨"f1", "Cost", 5, some 1, [("r1", 10), ("r2", 3)]⟩ ≠ 0 := by
    decide!
  have hhit := ((spawnParticles_pair_rule initialModel (fun _ => 0) ⟨[], 0⟩ []
      (initialModel.factors.drop 1) ⟨"f1", "Cost", 5, some 1, [("r1", 10), ("r2", 3)]⟩
      [⟨"r1", "Scott Cafe"⟩] [] ⟨"r2", "DJ's Dugout"⟩ rfl rfl).2 hne).1
  have hmiss := ((spawnParticles_pair_rule initialModel missAtTwo ⟨[], 0⟩ []
      (initialModel.factors.drop 1) ⟨"f1", "Cost", 5, some 1, [("r1", 10), ("r2", 3)]⟩
      [⟨"r1", "Scott Cafe"⟩] [] ⟨"r2", "DJ's Dugout"⟩ rfl rfl).2 hne).1
  refine ⟨hne, by decide!, ?_, ?_, by decide!, by decide!⟩
  · rw [hhit]
    congr 2
    decide!
  · rw [hmiss]
    congr 2
    decide!

/-! ## Scoring: monotone quotients in exact arithmetic -/

theorem orOne_pos (q : Option ℚ) (h : ∀ x ∈ q, (0 : ℚ) < x) : 0 < orOne q := by
  cases q with
  | none => norm_num [orOne]
  | some x =>
    simp only [orOne]
    split
    · norm_num
    · exact h x rfl

theorem target_quotient_mono (A W e e' : ℚ) (hA : A ≤ 10 * W) (hT : 0 < W + e)
    (he : e ≤ e') : (A + e * 10) / (W + e) ≤ (A + e' * 10) / (W + e') := by
  have hT' : 0 < W + e' := by linarith
  rw [div_le_div_iff₀ hT hT']
  nlinarith [mul_nonneg (sub_nonneg.mpr he) (sub_nonneg.mpr hA)]

/-! ## Double-precision arithmetic: rounding facts -/

theorem bitLength_zero (fuel : Nat) : bitLength fuel 0 = 0 := by
  cases fuel <;> simp [bitLength]

theorem bitLength_spec (fuel n : Nat) (h : n ≤ fuel) :
    n < 2 ^ bitLength fuel n ∧ (n ≠ 0 → 2 ^ bitLength fuel n ≤ 2 * n) := by
  induction fuel generalizing n with
  | zero =>
    have : n = 0 := by omega
    subst this
    simp [bitLength]
  | succ fuel ih =>
    by_cases hn : n = 0
    · subst hn
      simp [bitLength]
    · have h2 : n / 2 ≤ fuel := by omega
      obtain ⟨hlt, hge⟩ := ih (n / 2) h2
      simp only [bitLength, hn, if_false, pow_succ]
      constructor
      · omega
      · intro _
        by_cases hh : n / 2 = 0
        · rw [hh, bitLength_zero]
          simp
          omega
        · have := hge hh
          omega

theorem two_zpow_pos (k : ℤ) : (0 : ℚ) < (2 : ℚ) ^ k := zpow_pos (by norm_num) k

theorem two_zpow_lt_iff (a b : ℤ) : (2 : ℚ) ^ a < (2 : ℚ) ^ b ↔ a < b :=
  zpow_lt_zpow_iff_right₀ (by norm_num)

theorem two_zpow_le_iff (a b : ℤ) : (2 : ℚ) ^ a ≤ (2 : ℚ) ^ b ↔ a ≤ b :=
  zpow_le_zpow_iff_right₀ (by norm_num)

theorem abs_eq_natAbs_div_den (x : ℚ) : |x| = (x.num.natAbs : ℚ) / (x.den : ℚ) := by
  conv_lhs => rw [← Rat.num_div_den x]
  rw [abs_div, Nat.abs_cast, Nat.cast_natAbs, Int.cast_abs]

theorem expo_spec (x : ℚ) (hx : x ≠ 0) :
    (2 : ℚ) ^ expo x ≤ |x| ∧ |x| < (2 : ℚ) ^ (expo x + 1) := by
  have hn : x.num.natAbs ≠ 0 := by
    simpa using Rat.num_ne_zero.mpr hx
  have hd : x.den ≠ 0 := x.den_nz
  unfold expo
  simp only
  obtain ⟨hn1, hn2⟩ := bitLength_spec x.num.natAbs x.num.natAbs (le_refl _)
  obtain ⟨hd1, hd2⟩ := bitLength_spec x.den x.den (le_refl _)
  have hn2 := hn2 hn
  have hd2 := hd2 hd
  have habs := abs_eq_natAbs_div_den x
  generalize bitLength x.num.natAbs x.num.natAbs = a at *
  generalize bitLength x.den x.den = b at *
  generalize x.num.natAbs = n at *
  generalize x.den = d at *
  have hdpos : (0 : ℚ) < d := by exact_mod_cast Nat.pos_of_ne_zero hd
  have qn1 : (n : ℚ) < (2 : ℚ) ^ a := by exact_mod_cast hn1
  have qn2 : (2 : ℚ) ^ a ≤ 2 * n := by exact_mod_cast hn2
  have qd1 : (d : ℚ) < (2 : ℚ) ^ b := by exact_mod_cast hd1
  have qd2 : (2 : ℚ) ^ b ≤ 2 * d := by exact_mod_cast hd2
  have pa : (0 : ℚ) < (2 : ℚ) ^ a := by positivity
  have pb : (0 : ℚ) < (2 : ℚ) ^ b := by positivity
  have hk : (2 : ℚ) ^ ((a : ℤ) - (b : ℤ)) = (2 : ℚ) ^ a / (2 : ℚ) ^ b := by
    rw [zpow_sub₀ (by norm_num), zpow_natCast, zpow_natCast]
  have hkm : (2 : ℚ) ^ ((a : ℤ) - (b : ℤ) - 1) = (2 : ℚ) ^ a / (2 : ℚ) ^ b / 2 := by
    rw [zpow_sub₀ (by norm_num), hk, zpow_one]
  have hkp : (2 : ℚ) ^ ((a : ℤ) - (b : ℤ) + 1) = (2 : ℚ) ^ a / (2 : ℚ) ^ b * 2 := by
    rw [zpow_add₀ (by norm_num), hk, zpow_one]
  have hnpos : (0 : ℚ) ≤ n := Nat.cast_nonneg n
  have hA : (2 : ℚ) ^ a / (2 : ℚ) ^ b / 2 ≤ |x| := by
    rw [habs, div_div, div_le_div_iff₀ (by positivity) hdpos]
    nlinarith
  have hB : |x| < (2 : ℚ) ^ a / (2 : ℚ) ^ b * 2 := by
    rw [habs, div_mul_eq_mul_div, div_lt_div_iff₀ hdpos pb]
    nlinarith
  split
  · rename_i h
    exact ⟨h, by rw [hkp]; exact hB⟩
  · rename_i h
    refine ⟨by rw [hkm]; exact hA, ?_⟩
    rw [sub_add_cancel]
    exact not_le.mp h

theorem expo_unique (x : ℚ) (hx : x ≠ 0) (k : ℤ) (h1 : (2 : ℚ) ^ k ≤ |x|)
    (h2 : |x| < (2 : ℚ) ^ (k + 1)) : expo x = k := by
  obtain ⟨s1, s2⟩ := expo_spec x hx
  have a1 : expo x < k + 1 := (two_zpow_lt_iff _ _).mp (lt_of_le_of_lt s1 h2)
  have a2 : k < expo x + 1 := (two_zpow_lt_iff _ _).mp (lt_of_le_of_lt h1 s2)
  omega

theorem roundEven_intCast (n : ℤ) : roundEven (n : ℚ) = n := by
  simp [roundEven]

theorem roundEven_bounds (q : ℚ) : ⌊q⌋ ≤ roundEven q ∧ roundEven q ≤ ⌊q⌋ + 1 := by
  unfold roundEven
  split_ifs <;> omega

theorem roundEven_mono (q q' : ℚ) (h : q ≤ q') : roundEven q ≤ roundEven q' := by
  have hf : ⌊q⌋ ≤ ⌊q'⌋ := Int.floor_mono h
  rcases lt_or_eq_of_le hf with hlt | heq
  · have h1 := (roundEven_bounds q).2
    have h2 := (roundEven_bounds q').1
    omega
  · unfold roundEven
    rw [← heq]
    split_ifs <;> first | omega | (exfalso; linarith)

theorem roundEven_ge_int (n : ℤ) (q : ℚ) (h : (n : ℚ) ≤ q) : n ≤ roundEven q := by
  have := roundEven_mono _ _ h
  rwa [roundEven_intCast] at this

theorem roundEven_le_int (n : ℤ) (q : ℚ) (h : q ≤ (n : ℚ)) : roundEven q ≤ n := by
  have := roundEven_mono _ _ h
  rwa [roundEven_intCast] at this

theorem roundEven_neg (q : ℚ) : roundEven (-q) = -roundEven q := by
  by_cases hint : (⌊q⌋ : ℚ) = q
  · rw [← hint, ← Int.cast_neg, roundEven_intCast, roundEven_intCast]
  · have h1 : (⌊q⌋ : ℚ) ≤ q := Int.floor_le q
    have h2 : q < ⌊q⌋ + 1 := Int.lt_floor_add_one q
    have h3 : (⌊q⌋ : ℚ) < q := lt_of_le_of_ne h1 hint
    have hfl : ⌊-q⌋ = -⌊q⌋ - 1 := by
      rw [Int.floor_eq_iff]
      push_cast
      constructor <;> linarith
    unfold roundEven
    rw [hfl]
    push_cast
    split_ifs <;> first | omega | (exfalso; linarith)

theorem fl_zero : fl 0 = 0 := by
  simp [fl]

theorem fl_of_ne_zero (x : ℚ) (hx : x ≠ 0) :
    fl x = (roundEven (x / (2 : ℚ) ^ (max (expo x) (-1022) - 52)) : ℚ)
      * (2 : ℚ) ^ (max (expo x) (-1022) - 52) := by
  simp [fl, hx]

theorem fl_nonneg (x : ℚ) (hx : 0 ≤ x) : 0 ≤ fl x := by
  by_cases h0 : x = 0
  · rw [h0, fl_zero]
  · rw [fl_of_ne_zero x h0]
    have hu := two_zpow_pos (max (expo x) (-1022) - 52)
    have hq : ((0 : ℤ) : ℚ) ≤ x / (2 : ℚ) ^ (max (expo x) (-1022) - 52) := by
      simpa using div_nonneg hx (le_of_lt hu)
    have hr : (0 : ℤ) ≤ roundEven (x / (2 : ℚ) ^ (max (expo x) (-1022) - 52)) :=
      roundEven_ge_int 0 _ hq
    exact mul_nonneg (by exact_mod_cast hr) (le_of_lt hu)

theorem expo_neg (x : ℚ) : expo (-x) = expo x := by
  simp [expo]

theorem fl_neg (x : ℚ) : fl (-x) = -fl x := by
  by_cases h0 : x = 0
  · simp [h0, fl_zero]
  · have h0' : -x ≠ 0 := neg_ne_zero.mpr h0
    rw [fl_of_ne_zero x h0, fl_of_ne_zero (-x) h0', expo_neg, neg_div, roundEven_neg]
    push_cast
    ring

theorem fl_rep (n j : ℤ) (hn : |n| < 2 ^ 53) (hj : -1074 ≤ j) :
    fl ((n : ℚ) * (2 : ℚ) ^ j) = (n : ℚ) * (2 : ℚ) ^ j := by
  by_cases h0 : n = 0
  · simp [h0, fl_zero]
  · have hx : (n : ℚ) * (2 : ℚ) ^ j ≠ 0 :=
      mul_ne_zero (by exact_mod_cast h0) (ne_of_gt (two_zpow_pos j))
    obtain ⟨s1, _⟩ := expo_spec _ hx
    have habs : |(n : ℚ) * (2 : ℚ) ^ j| < (2 : ℚ) ^ (53 + j) := by
      rw [abs_mul, abs_of_pos (two_zpow_pos j), zpow_add₀ (by norm_num)]
      have : |(n : ℚ)| < (2 : ℚ) ^ (53 : ℤ) := by
        rw [← Int.cast_abs]
        have : ((|n| : ℤ) : ℚ) < ((2 ^ 53 : ℤ) : ℚ) := by exact_mod_cast hn
        refine lt_of_lt_of_le this (le_of_eq ?_)
        norm_num
      exact mul_lt_mul_of_pos_right this (two_zpow_pos j)
    have hE : expo ((n : ℚ) * (2 : ℚ) ^ j) < 53 + j :=
      (two_zpow_lt_iff _ _).mp (lt_of_le_of_lt s1 habs)
    rw [fl_of_ne_zero _ hx]
    generalize hemax : max (expo ((n : ℚ) * (2 : ℚ) ^ j)) (-1022) = e
    have he : e ≤ 52 + j := by
      rw [← hemax]
      exact max_le (by omega) (by omega)
    obtain ⟨t, ht⟩ := Int.eq_ofNat_of_zero_le (show 0 ≤ j - (e - 52) by omega)
    have hj2 : (2 : ℚ) ^ j = (2 : ℚ) ^ (t : ℤ) * (2 : ℚ) ^ (e - 52) := by
      rw [← zpow_add₀ (by norm_num)]
      congr 1
      omega
    have hq : (n : ℚ) * (2 : ℚ) ^ j / (2 : ℚ) ^ (e - 52) = ((n * 2 ^ t : ℤ) : ℚ) := by
      rw [hj2, ← mul_assoc, mul_div_assoc, div_self (ne_of_gt (two_zpow_pos _)), mul_one,
        zpow_natCast]
      push_cast
      ring
    rw [hq, roundEven_intCast, hj2]
    push_cast
    rw [zpow_natCast]
    ring

theorem fl_quarter (k : ℤ) (hk : |k| < 2 ^ 53) : fl ((k : ℚ) / 4) = (k : ℚ) / 4 := by
  have h := fl_rep k (-2) hk (by norm_num)
  have h4 : (2 : ℚ) ^ (-2 : ℤ) = 1 / 4 := by norm_num
  rw [h4] at h
  simpa [div_eq_mul_inv] using h

theorem scaled_abs_lt (x : ℚ) (hx : x ≠ 0) :
    |x / (2 : ℚ) ^ (max (expo x) (-1022) - 52)| < (2 : ℚ) ^ (53 : ℤ) := by
  obtain ⟨_, s2⟩ := expo_spec x hx
  have hu := two_zpow_pos (max (expo x) (-1022) - 52)
  rw [abs_div, abs_of_pos hu, div_lt_iff₀ hu, ← zpow_add₀ (by norm_num)]
  refine lt_of_lt_of_le s2 ((two_zpow_le_iff _ _).mpr ?_)
  have := le_max_left (expo x) (-1022)
  omega

theorem fl_idem (x : ℚ) : fl (fl x) = fl x := by
  by_cases h0 : x = 0
  · rw [h0, fl_zero, fl_zero]
  · rw [fl_of_ne_zero x h0]
    have hq := abs_lt.mp (scaled_abs_lt x h0)
    have he : -1022 ≤ max (expo x) (-1022) := le_max_right _ _
    generalize max (expo x) (-1022) = e at *
    have hc : (2 : ℚ) ^ (53 : ℤ) = ((2 ^ 53 : ℤ) : ℚ) := by norm_num
    have hm1 : roundEven (x / (2 : ℚ) ^ (e - 52)) ≤ 2 ^ 53 :=
      roundEven_le_int _ _ (by rw [← hc]; exact le_of_lt hq.2)
    have hm2 : -(2 ^ 53) ≤ roundEven (x / (2 : ℚ) ^ (e - 52)) :=
      roundEven_ge_int _ _ (by push_cast; rw [← hc] at *; linarith [hq.1])
    generalize roundEven (x / (2 : ℚ) ^ (e - 52)) = m at *
    rcases lt_or_eq_of_le hm1 with h1 | h1
    · rcases lt_or_eq_of_le hm2 with h2 | h2
      · exact fl_rep m (e - 52) (abs_lt.mpr ⟨h2, h1⟩) (by omega)
      · have hr := fl_rep (-1) (e + 1) (by norm_num) (by omega)
        have heq : ((m : ℤ) : ℚ) * (2 : ℚ) ^ (e - 52) = ((-1 : ℤ) : ℚ) * (2 : ℚ) ^ (e + 1) := by
          rw [← h2, show e + 1 = 53 + (e - 52) by ring, zpow_add₀ (by norm_num)]
          push_cast
          norm_num
        rw [heq]
        exact hr
    · have hr := fl_rep 1 (e + 1) (by norm_num) (by omega)
      have heq : ((m : ℤ) : ℚ) * (2 : ℚ) ^ (e - 52) = ((1 : ℤ) : ℚ) * (2 : ℚ) ^ (e + 1) := by
        rw [h1, show e + 1 = 53 + (e - 52) by ring, zpow_add₀ (by norm_num)]
        push_cast
        norm_num
      rw [heq]
      exact hr

theorem fl_mono_nonneg (x y : ℚ) (hx : 0 ≤ x) (hxy : x ≤ y) : fl x ≤ fl y := by
  by_cases h0 : x = 0
  · rw [h0, fl_zero]
    exact fl_nonneg y (le_trans hx hxy)
  · have hxpos : 0 < x := lt_of_le_of_ne hx (Ne.symm h0)
    have hypos : 0 < y := lt_of_lt_of_le hxpos hxy
    have hy0 : y ≠ 0 := ne_of_gt hypos
    obtain ⟨x1, x2⟩ := expo_spec x h0
    obtain ⟨y1, y2⟩ := expo_spec y hy0
    rw [abs_of_pos hxpos] at x1 x2
    rw [abs_of_pos hypos] at y1 y2
    have hE : expo x ≤ expo y := by
      have : expo x < expo y + 1 :=
        (two_zpow_lt_iff _ _).mp (lt_of_le_of_lt x1 (lt_of_le_of_lt hxy y2))
      omega
    have hsx := abs_lt.mp (scaled_abs_lt x h0)
    rw [fl_of_ne_zero x h0, fl_of_ne_zero y hy0]
    have hc : (2 : ℚ) ^ (53 : ℤ) = ((2 ^ 53 : ℤ) : ℚ) := by norm_num
    have hc2 : (2 : ℚ) ^ (52 : ℤ) = ((2 ^ 52 : ℤ) : ℚ) := by norm_num
    rcases lt_or_eq_of_le (max_le_max hE (le_refl (-1022 : ℤ))) with hlt | heq
    · have hey : max (expo y) (-1022) = expo y := by
        have := le_max_right (expo x) (-1022)
        rcases max_cases (expo y) (-1022) with ⟨h, _⟩ | ⟨h, _⟩
        · exact h
        · omega
      rw [hey] at hlt ⊢
      generalize max (expo x) (-1022) = ex at *
      have hmx : roundEven (x / (2 : ℚ) ^ (ex - 52)) ≤ 2 ^ 53 :=
        roundEven_le_int _ _ (by rw [← hc]; exact le_of_lt hsx.2)
      have hmy : 2 ^ 52 ≤ roundEven (y / (2 : ℚ) ^ (expo y - 52)) := by
        apply roundEven_ge_int
        rw [← hc2, le_div_iff₀ (two_zpow_pos _), ← zpow_add₀ (by norm_num)]
        have : (52 : ℤ) + (expo y - 52) = expo y := by ring
        rw [this]
        exact y1
      have hmxq : (roundEven (x / (2 : ℚ) ^ (ex - 52)) : ℚ) ≤ (2 : ℚ) ^ (53 : ℤ) := by
        rw [hc]
        exact_mod_cast hmx
      have hmyq : (2 : ℚ) ^ (52 : ℤ) ≤ (roundEven (y / (2 : ℚ) ^ (expo y - 52)) : ℚ) := by
        rw [hc2]
        exact_mod_cast hmy
      calc (roundEven (x / (2 : ℚ) ^ (ex - 52)) : ℚ) * (2 : ℚ) ^ (ex - 52)
          ≤ (2 : ℚ) ^ (53 : ℤ) * (2 : ℚ) ^ (ex - 52) :=
            mul_le_mul_of_nonneg_right hmxq (le_of_lt (two_zpow_pos _))
        _ = (2 : ℚ) ^ (ex + 1) := by
            rw [← zpow_add₀ (by norm_num)]
            congr 1
            ring
        _ ≤ (2 : ℚ) ^ (expo y) := (two_zpow_le_iff _ _).mpr (by omega)
        _ = (2 : ℚ) ^ (52 : ℤ) * (2 : ℚ) ^ (expo y - 52) := by
            rw [← zpow_add₀ (by norm_num)]
            congr 1
            ring
        _ ≤ (roundEven (y / (2 : ℚ) ^ (expo y - 52)) : ℚ) * (2 : ℚ) ^ (expo y - 52) :=
            mul_le_mul_of_nonneg_right hmyq (le_of_lt (two_zpow_pos _))
    · rw [← heq]
      have hu := two_zpow_pos (max (expo x) (-1022) - 52)
      have hdiv : x / (2 : ℚ) ^ (max (expo x) (-1022) - 52)
          ≤ y / (2 : ℚ) ^ (max (expo x) (-1022) - 52) :=
        div_le_div_of_nonneg_right hxy (le_of_lt hu)
      have hr := roundEven_mono _ _ hdiv
      exact mul_le_mul_of_nonneg_right (by exact_mod_cast hr) (le_of_lt hu)

/-! ## Double-precision scoring: basic facts -/

theorem fl_ten : fl 10 = 10 := by decide!

theorem fl_milli_pos : 0 < fl (1/1000) := by decide!

theorem ieee_effectiveWeight_idem (f : Factor) :
    fl (IEEE.effectiveWeight f) = IEEE.effectiveWeight f :=
  fl_idem _

theorem ieee_effectiveBias_idem (b : Bias) : fl (IEEE.effectiveBias b) = IEEE.effectiveBias b :=
  fl_idem _

theorem ieee_computeScores_get (m : Model) (k : String) :
    (IEEE.computeScores m).get k
      = if k ∈ m.restaurants.map (fun r => r.id) then some (IEEE.scoreOf m k) else none := by
  unfold IEEE.computeScores
  rw [get_foldl_set (IEEE.scoreOf m)]
  simp [Obj.get]

theorem ieee_computeScores_get_of_mem (m : Model) (r : Restaurant) (hr : r ∈ m.restaurants) :
    (IEEE.computeScores m).get r.id = some (IEEE.scoreOf m r.id) := by
  rw [ieee_computeScores_get]
  have : r.id ∈ m.restaurants.map (fun r => r.id) := List.mem_map_of_mem _ hr
  simp only [this, if_true]

theorem foldl_fl_add_zero {α : Type} (v : α → ℚ) (l : List α) (hv : ∀ g ∈ l, v g = 0) (a : ℚ)
    (ha : fl a = a) : l.foldl (fun acc g => fl (acc + v g)) a = a := by
  induction l with
  | nil => rfl
  | cons g gs ih =>
    rw [List.foldl_cons, hv g (List.mem_cons_self _ _), add_zero, ha]
    exact ih (fun x hx => hv x (List.mem_cons_of_mem _ hx))

theorem foldl_fl_add_nonneg {α : Type} (v : α → ℚ) (l : List α) (hv : ∀ g ∈ l, 0 ≤ v g)
    (a : ℚ) (ha : 0 ≤ a) : 0 ≤ l.foldl (fun acc g => fl (acc + v g)) a := by
  induction l generalizing a with
  | nil => exact ha
  | cons g gs ih =>
    rw [List.foldl_cons]
    exact ih (fun x hx => hv x (List.mem_cons_of_mem _ hx)) _
      (fl_nonneg _ (add_nonneg ha (hv g (List.mem_cons_self _ _))))

/-! ## C3 -/

theorem abs_fl (x : ℚ) : |fl x| = fl |x| := by
  rcases le_total 0 x with h | h
  · rw [abs_of_nonneg h, abs_of_nonneg (fl_nonneg x h)]
  · have h' : 0 ≤ -x := neg_nonneg.mpr h
    have hn := fl_nonneg (-x) h'
    rw [fl_neg] at hn
    rw [abs_of_nonpos h, abs_of_nonpos (by linarith), fl_neg]

theorem fl_below_milli : fl (1/1000 - 2/10^19) < fl (1/1000) := by decide!

theorem ieee_scoreOf_nonneg (m : Model) (hn : NonNegModel m) (k : String) :
    0 ≤ IEEE.scoreOf m k := by
  obtain ⟨hfs, hb, hbm⟩ := hn
  have hew : ∀ f ∈ m.factors, 0 ≤ IEEE.effectiveWeight f := fun f hf =>
    fl_nonneg _ (mul_nonneg (hfs f hf).1 (orOne_nonneg _ (hfs f hf).2.1))
  have heb : 0 ≤ IEEE.effectiveBias m.bias :=
    fl_nonneg _ (mul_nonneg hb (orOne_nonneg _ hbm))
  have hS : 0 ≤ m.factors.foldl (fun sum f => fl (sum + IEEE.effectiveWeight f)) 0 :=
    foldl_fl_add_nonneg IEEE.effectiveWeight m.factors hew 0 (le_refl _)
  have hT : 0 ≤ IEEE.totalWeight m := fl_nonneg _ (add_nonneg hS heb)
  have hW : 0 ≤ IEEE.weightedSum m.factors k :=
    foldl_fl_add_nonneg (fun f => fl (IEEE.effectiveWeight f * orZero (f.scores.get k)))
      m.factors (fun f hf => fl_nonneg _ (mul_nonneg (hew f hf)
        (orZero_get_nonneg f.scores k (hfs f hf).2.2))) 0 (le_refl _)
  unfold IEEE.scoreOf
  split
  · exact le_refl _
  · simp only
    split
    · exact fl_nonneg _ (div_nonneg
        (fl_nonneg _ (add_nonneg hW (fl_nonneg _ (mul_nonneg heb (by norm_num))))) hT)
    · exact fl_nonneg _ (div_nonneg hW hT)

theorem ieee_computeScores_get_some (m : Model) (k : String) (s : ℚ)
    (h : (IEEE.computeScores m).get k = some s) : s = IEEE.scoreOf m k := by
  rw [ieee_computeScores_get] at h
  split at h
  · exact (Option.some.inj h).symm
  · cases h

theorem mem_ieee_getWinnerIds_iff (m : Model) (scores : Obj) (h2 : 2 ≤ m.restaurants.length)
    (hw : IEEE.totalWeight m ≠ 0) (id : String) :
    id ∈ IEEE.getWinnerIds m scores ↔
      ∃ s, scores.get id = some s ∧ |fl (s - maxScore scores)| < fl (1/1000) := by
  have h2' : ¬ m.restaurants.length < 2 := not_lt.mpr h2
  simp only [IEEE.getWinnerIds, h2', hw, if_false, List.mem_filter]
  constructor
  · rintro ⟨_, hp⟩
    cases hg : scores.get id with
    | none => simp [hg] at hp
    | some s =>
      simp only [hg, decide_eq_true_eq] at hp
      exact ⟨s, rfl, hp⟩
  · rintro ⟨s, hs, hlt⟩
    refine ⟨(obj_mem_keys_iff scores id).mpr ⟨s, hs⟩, ?_⟩
    simp only [hs, decide_eq_true_eq]
    exact hlt

/-- C3: for every model the program can hold (non-negative weights, multipliers and
scores) with at least 2 options and non-zero total weight, in double precision, with `M`
the maximum score over all options: `getWinnerIds (computeScores ())` returns exactly the
option ids whose score `s` passes the test of the code, `Math.abs(s - M) < 0.001`. Every
option within `0.001 - 2e-19` of `M` is returned and no option at distance 0.001 or more
is; in particular an option tied with the maximum is a winner and an option scoring 0.002
(or more) below the maximum is not. -/
theorem winners_within_tolerance_of_max (m : Model) (hn : NonNegModel m)
    (h2 : 2 ≤ m.restaurants.length) (hw : IEEE.totalWeight m ≠ 0) (M : ℚ)
    (hM : IsMaxScore (IEEE.computeScores m) M) :
    (∀ id, id ∈ IEEE.getWinnerIds m (IEEE.computeScores m) ↔
        ∃ s, (IEEE.computeScores m).get id = some s ∧ |fl (s - M)| < fl (1/1000)) ∧
    (∀ id s, (IEEE.computeScores m).get id = some s → |s - M| ≤ 1/1000 - 2/10^19 →
        id ∈ IEEE.getWinnerIds m (IEEE.computeScores m)) ∧
    (∀ id s, (IEEE.computeScores m).get id = some s → 1/1000 ≤ |s - M| →
        id ∉ IEEE.getWinnerIds m (IEEE.computeScores m)) ∧
    (∀ id, (IEEE.computeScores m).get id = some M →
        id ∈ IEEE.getWinnerIds m (IEEE.computeScores m)) ∧
    (∀ id s, (IEEE.computeScores m).get id = some s → s ≤ M - 2/1000 →
        id ∉ IEEE.getWinnerIds m (IEEE.computeScores m)) := by
  have hge : -1 ≤ M := by
    obtain ⟨⟨k, hk⟩, _⟩ := hM
    rw [ieee_computeScores_get_some m k M hk]
    linarith [ieee_scoreOf_nonneg m hn k]
  have hmax := maxScore_eq_of_isMax _ M hM hge
  have key : ∀ id, id ∈ IEEE.getWinnerIds m (IEEE.computeScores m) ↔
      ∃ s, (IEEE.computeScores m).get id = some s ∧ |fl (s - M)| < fl (1/1000) := by
    intro id
    rw [mem_ieee_getWinnerIds_iff m _ h2 hw id, hmax]
  have hfar : ∀ id s, (IEEE.computeScores m).get id = some s → 1/1000 ≤ |s - M| →
      id ∉ IEEE.getWinnerIds m (IEEE.computeScores m) := by
    intro id s hs hd hmem
    obtain ⟨s', hs', hlt⟩ := (key id).mp hmem
    rw [hs] at hs'
    cases hs'
    rw [abs_fl] at hlt
    exact absurd hlt (not_lt.mpr (fl_mono_nonneg _ _ (by norm_num) hd))
  refine ⟨key, ?_, hfar, ?_, ?_⟩
  · intro id s hs hd
    refine (key id).mpr ⟨s, hs, ?_⟩
    rw [abs_fl]
    exact lt_of_le_of_lt (fl_mono_nonneg _ _ (abs_nonneg _) hd) fl_below_milli
  · intro id hid
    refine (key id).mpr ⟨M, hid, ?_⟩
    rw [sub_self, fl_zero, abs_zero]
    exact fl_milli_pos
  · intro id s hs hd
    refine hfar id s hs ?_
    rw [abs_of_nonpos (by linarith)]
    linarith

theorem winners_within_tolerance_of_max_witness :
    (NonNegModel initialModel ∧ 2 ≤ initialModel.restaurants.length ∧
      IEEE.totalWeight initialModel ≠ 0 ∧ IsMaxScore (IEEE.computeScores initialModel) (15/2)) ∧
    IEEE.computeScores initialModel = [("r1", 15/2), ("r2", fl (29/6))] ∧
    IEEE.getWinnerIds initialModel (IEEE.computeScores initialModel) = ["r1"] ∧
    "r1" ∈ IEEE.getWinnerIds initialModel (IEEE.computeScores initialModel) ∧
    "r2" ∉ IEEE.getWinnerIds initialModel (IEEE.computeScores initialModel) := by
  have hs : IEEE.computeScores initialModel = [("r1", 15/2), ("r2", fl (29/6))] := by decide!
  have hM : IsMaxScore (IEEE.computeScores initialModel) (15/2) := by
    rw [hs]
    refine ⟨⟨"r1", by decide!⟩, ?_⟩
    intro k s hk
    simp only [Obj.get] at hk
    split_ifs at hk
    · cases hk
      norm_num
    · cases hk
      decide!
  have h := winners_within_tolerance_of_max initialModel (by decide!) (by decide!) (by decide!)
    (15/2) hM
  exact ⟨⟨by decide!, by decide!, by decide!, hM⟩, hs, by decide!,
    h.2.2.2.1 "r1" (by decide!), h.2.2.2.2 "r2" (fl (29/6)) (by decide!) (by decide!)⟩

/-! ## C5 -/

theorem slider_bias_exact :
    ∀ s ∈ sliderValues, ∀ q ∈ multiplierSteps, fl (fl (s * q) * 10) = fl (s * q) * 10 := by
  decide!

theorem orOne_of_step (q : ℚ) (h : q ∈ multiplierSteps) : orOne (some q) = q := by
  simp only [multiplierSteps, List.mem_cons, List.mem_singleton, List.mem_nil_iff,
    or_false] at h
  rcases h with h | h | h | h | h | h | h | h | h | h <;> subst h <;> norm_num [orOne]

theorem ieee_totalWeight_no_factors (m : Model) (hf : m.factors = []) :
    IEEE.totalWeight m = IEEE.effectiveBias m.bias := by
  unfold IEEE.totalWeight
  rw [hf]
  simp only [List.foldl_nil, zero_add]
  exact ieee_effectiveBias_idem _

/-- C5, as stated, fails in double precision: with no factors and a bias of strength 0.3
and multiplier 0.75 toward A, `computeScores` returns 10.000000000000002 for A, not 10. -/
theorem bias_only_score_rounds_above_ten :
    (biasOnly (fl (3/10))).factors = [] ∧
    IEEE.effectiveBias (biasOnly (fl (3/10))).bias ≠ 0 ∧
    (biasOnly (fl (3/10))).bias.targetId = some "A" ∧
    (IEEE.computeScores (biasOnly (fl (3/10)))).get "A" = some (10 + (2 : ℚ) ^ (-49 : ℤ)) ∧
    (IEEE.computeScores (biasOnly (fl (3/10)))).get "A" ≠ some 10 := by
  refine ⟨rfl, by decide!, rfl, by decide!, by decide!⟩

/-- C5 (amended): with no factors and a bias of non-zero effective strength `eb` whose
target is one of the options, `computeScores` gives every other option exactly 0 and the
target the double `fl (fl (eb * 10) / eb)`; this is exactly 10 whenever `eb * 10` is
exactly representable, in particular for every slider strength with every multiplier
step. -/
theorem bias_only_scores_double (m : Model) (hf : m.factors = [])
    (hb : IEEE.effectiveBias m.bias ≠ 0) (t : String) (ht : m.bias.targetId = some t)
    (hmem : t ∈ m.restaurants.map (fun r => r.id)) :
    (IEEE.computeScores m).get t
      = some (fl (fl (IEEE.effectiveBias m.bias * 10) / IEEE.effectiveBias m.bias)) ∧
    (fl (IEEE.effectiveBias m.bias * 10) = IEEE.effectiveBias m.bias * 10 →
      (IEEE.computeScores m).get t = some 10) ∧
    (m.bias.strength ∈ sliderValues → m.bias.multiplier ∈ multiplierSteps.map some →
      (IEEE.computeScores m).get t = some 10) ∧
    (∀ r ∈ m.restaurants, r.id ≠ t → (IEEE.computeScores m).get r.id = some 0) := by
  have htw := ieee_totalWeight_no_factors m hf
  have hscore : IEEE.scoreOf m t
      = fl (fl (IEEE.effectiveBias m.bias * 10) / IEEE.effectiveBias m.bias) := by
    simp only [IEEE.scoreOf, htw, hb, if_false, ht, if_true, hf, IEEE.weightedSum,
      List.foldl_nil, zero_add, fl_idem]
  have hget : (IEEE.computeScores m).get t = some (IEEE.scoreOf m t) := by
    rw [ieee_computeScores_get]
    simp only [hmem, if_true]
  have hexact : fl (IEEE.effectiveBias m.bias * 10) = IEEE.effectiveBias m.bias * 10 →
      (IEEE.computeScores m).get t = some 10 := by
    intro he
    rw [hget, hscore, he, mul_comm, mul_div_cancel_right₀ _ hb, fl_ten]
  refine ⟨by rw [hget, hscore], hexact, ?_, ?_⟩
  · intro hs hq
    obtain ⟨q, hq1, hq2⟩ := List.mem_map.mp hq
    apply hexact
    have := slider_bias_exact _ hs q hq1
    simpa only [IEEE.effectiveBias, ← hq2, orOne_of_step q hq1] using this
  · intro r hr hne
    rw [ieee_computeScores_get_of_mem m r hr]
    have hne' : ¬ some r.id = some t := fun h => hne (Option.some.inj h)
    simp [IEEE.scoreOf, htw, hb, ht, hne', hf, IEEE.weightedSum, fl_zero]

theorem bias_only_scores_double_witness :
    (biasOnlyModel.factors = [] ∧ IEEE.effectiveBias biasOnlyModel.bias ≠ 0 ∧
      biasOnlyModel.bias.targetId = some "A" ∧
      "A" ∈ biasOnlyModel.restaurants.map (fun r => r.id)) ∧
    (IEEE.computeScores biasOnlyModel).get "A" = some 10 ∧
    (∀ r ∈ biasOnlyModel.restaurants, r.id ≠ "A" →
      (IEEE.computeScores biasOnlyModel).get r.id = some 0) := by
  have h := bias_only_scores_double biasOnlyModel rfl (by decide!) "A" rfl (by decide!)
  exact ⟨⟨rfl, by decide!, rfl, by decide!⟩, h.2.1 (by decide!), h.2.2.2⟩

/-! ## C4 -/

theorem ieee_zero_weight_term (g : Factor) (rid : String) (h : IEEE.effectiveWeight g = 0) :
    fl (IEEE.effectiveWeight g * orZero (g.scores.get rid)) = 0 := by
  rw [h, zero_mul, fl_zero]

theorem ieee_weightedSum_single (pre post : List Factor) (f : Factor) (rid : String)
    (hz : ∀ g ∈ pre ++ post, IEEE.effectiveWeight g = 0) :
    IEEE.weightedSum (pre ++ f :: post) rid
      = fl (IEEE.effectiveWeight f * orZero (f.scores.get rid)) := by
  unfold IEEE.weightedSum
  rw [List.foldl_append, List.foldl_cons]
  rw [foldl_fl_add_zero (fun g => fl (IEEE.effectiveWeight g * orZero (g.scores.get rid))) pre
    (fun g hg => ieee_zero_weight_term g rid (hz g (List.mem_append_left _ hg))) 0 fl_zero]
  rw [zero_add, fl_idem]
  exact foldl_fl_add_zero (fun g => fl (IEEE.effectiveWeight g * orZero (g.scores.get rid))) post
    (fun g hg => ieee_zero_weight_term g rid (hz g (List.mem_append_right _ hg))) _ (fl_idem _)

theorem ieee_totalWeight_single (m : Model) (pre post : List Factor) (f : Factor)
    (hf : m.factors = pre ++ f :: post) (hz : ∀ g ∈ pre ++ post, IEEE.effectiveWeight g = 0)
    (hb : m.bias.strength = 0) : IEEE.totalWeight m = IEEE.effectiveWeight f := by
  unfold IEEE.totalWeight
  rw [hf, List.foldl_append, List.foldl_cons]
  rw [foldl_fl_add_zero IEEE.effectiveWeight pre
    (fun g hg => hz g (List.mem_append_left _ hg)) 0 fl_zero]
  rw [zero_add, ieee_effectiveWeight_idem]
  rw [foldl_fl_add_zero IEEE.effectiveWeight post
    (fun g hg => hz g (List.mem_append_right _ hg)) _ (ieee_effectiveWeight_idem f)]
  have heb : IEEE.effectiveBias m.bias = 0 := by
    simp [IEEE.effectiveBias, hb, fl_zero]
  rw [heb, add_zero, ieee_effectiveWeight_idem]

theorem ieee_scoreOf_single (m : Model) (pre post : List Factor) (f : Factor)
    (hf : m.factors = pre ++ f :: post) (hz : ∀ g ∈ pre ++ post, IEEE.effectiveWeight g = 0)
    (hne : IEEE.effectiveWeight f ≠ 0) (hb : m.bias.strength = 0) (rid : String) :
    IEEE.scoreOf m rid
      = fl (fl (IEEE.effectiveWeight f * orZero (f.scores.get rid)) / IEEE.effectiveWeight f) := by
  unfold IEEE.scoreOf
  rw [ieee_totalWeight_single m pre post f hf hz hb, hf, ieee_weightedSum_single pre post f rid hz]
  have heb : IEEE.effectiveBias m.bias = 0 := by
    simp [IEEE.effectiveBias, hb, fl_zero]
  simp only [hne, if_false, heb, zero_mul, fl_zero, add_zero, fl_idem, ite_self]

theorem ieee_computeScores_pair (m : Model) (A B : Restaurant) (hr : m.restaurants = [A, B])
    (hAB : A.id ≠ B.id) :
    IEEE.computeScores m = [(A.id, IEEE.scoreOf m A.id), (B.id, IEEE.scoreOf m B.id)] := by
  simp [IEEE.computeScores, hr, Obj.set, hAB]

theorem ieee_winner_of_margin (m : Model) (A B : Restaurant) (hr : m.restaurants = [A, B])
    (hAB : A.id ≠ B.id) (hw : IEEE.totalWeight m ≠ 0)
    (hlow : 0 ≤ IEEE.scoreOf m B.id)
    (hgap : IEEE.scoreOf m B.id + 1/1000 ≤ IEEE.scoreOf m A.id) :
    IEEE.getWinnerIds m (IEEE.computeScores m) = [A.id] := by
  have hc := fl_milli_pos
  have hmaxv : max (IEEE.scoreOf m A.id) (IEEE.scoreOf m B.id) = IEEE.scoreOf m A.id :=
    max_eq_left (by linarith)
  have hmax : maxScore (IEEE.computeScores m) = IEEE.scoreOf m A.id := by
    have hIs := isMaxScore_pair A.id B.id (IEEE.scoreOf m A.id) (IEEE.scoreOf m B.id) hAB
    rw [hmaxv] at hIs
    rw [ieee_computeScores_pair m A B hr hAB]
    exact maxScore_eq_of_isMax _ _ hIs (by linarith)
  have h2 : ¬ m.restaurants.length < 2 := by simp [hr]
  have hBA : ¬ B.id = A.id := fun h => hAB h.symm
  have hA : |fl (IEEE.scoreOf m A.id - IEEE.scoreOf m A.id)| < fl (1/1000) := by
    rw [sub_self, fl_zero, abs_zero]
    exact hc
  have hB : ¬ |fl (IEEE.scoreOf m B.id - IEEE.scoreOf m A.id)| < fl (1/1000) := by
    have hd : fl (1/1000) ≤ fl (IEEE.scoreOf m A.id - IEEE.scoreOf m B.id) :=
      fl_mono_nonneg (1/1000) (IEEE.scoreOf m A.id - IEEE.scoreOf m B.id)
        (by norm_num) (by linarith)
    rw [← neg_sub, fl_neg, abs_neg, not_lt]
    exact le_trans hd (le_abs_self _)
  simp only [IEEE.getWinnerIds, h2, hw, if_false, hmax]
  rw [ieee_computeScores_pair m A B hr hAB]
  simp only [Obj.keys, List.map_cons, List.map_nil, Obj.get, List.filter_cons, List.filter_nil,
    if_true, hBA, hAB, if_false, hA, hB, decide_True, decide_False]
  rfl

theorem ieee_winner_of_margin_second (m : Model) (A B : Restaurant)
    (hr : m.restaurants = [A, B]) (hAB : A.id ≠ B.id) (hw : IEEE.totalWeight m ≠ 0)
    (hlow : 0 ≤ IEEE.scoreOf m A.id)
    (hgap : IEEE.scoreOf m A.id + 1/1000 ≤ IEEE.scoreOf m B.id) :
    IEEE.getWinnerIds m (IEEE.computeScores m) = [B.id] := by
  have hc := fl_milli_pos
  have hmaxv : max (IEEE.scoreOf m A.id) (IEEE.scoreOf m B.id) = IEEE.scoreOf m B.id :=
    max_eq_right (by linarith)
  have hmax : maxScore (IEEE.computeScores m) = IEEE.scoreOf m B.id := by
    have hIs := isMaxScore_pair A.id B.id (IEEE.scoreOf m A.id) (IEEE.scoreOf m B.id) hAB
    rw [hmaxv] at hIs
    rw [ieee_computeScores_pair m A B hr hAB]
    exact maxScore_eq_of_isMax _ _ hIs (by linarith)
  have h2 : ¬ m.restaurants.length < 2 := by simp [hr]
  have hBA : ¬ B.id = A.id := fun h => hAB h.symm
  have hB : |fl (IEEE.scoreOf m B.id - IEEE.scoreOf m B.id)| < fl (1/1000) := by
    rw [sub_self, fl_zero, abs_zero]
    exact hc
  have hA : ¬ |fl (IEEE.scoreOf m A.id - IEEE.scoreOf m B.id)| < fl (1/1000) := by
    have hd : fl (1/1000) ≤ fl (IEEE.scoreOf m B.id - IEEE.scoreOf m A.id) :=
      fl_mono_nonneg (1/1000) (IEEE.scoreOf m B.id - IEEE.scoreOf m A.id)
        (by norm_num) (by linarith)
    rw [← neg_sub, fl_neg, abs_neg, not_lt]
    exact le_trans hd (le_abs_self _)
  simp only [IEEE.getWinnerIds, h2, hw, if_false, hmax]
  rw [ieee_computeScores_pair m A B hr hAB]
  simp only [Obj.keys, List.map_cons, List.map_nil, Obj.get, List.filter_cons, List.filter_nil,
    if_true, hBA, hAB, if_false, hA, hB, decide_True, decide_False]
  rfl

/-- C4, as stated, fails in double precision: with one factor of slider weight 6 and
multiplier 0.75 and no bias, the typed score 7.8 comes back as 7.800000000000001; and
with weight 1, multiplier 0.75 and the typed scores 0.002953125 and 0.001953125, which
differ by at least 0.001, `getWinnerIds` returns both options. -/
theorem single_factor_score_rounds :
    (roundedScoreModel.factors.map IEEE.effectiveWeight = [9/2] ∧
      roundedScoreModel.bias.strength = 0 ∧
      (IEEE.computeScores roundedScoreModel).get "A"
        = some (fl (39/5) + (2 : ℚ) ^ (-50 : ℤ)) ∧
      (IEEE.computeScores roundedScoreModel).get "A" ≠ some (fl (39/5))) ∧
    (nearTieModel.factors.map IEEE.effectiveWeight = [3/4] ∧
      nearTieModel.bias.strength = 0 ∧
      (1 : ℚ)/512 + 1/1000 ≤ fl (2953125/1000000000) ∧
      IEEE.getWinnerIds nearTieModel (IEEE.computeScores nearTieModel) = ["A", "B"]) := by
  refine ⟨⟨by decide!, rfl, by decide!, by decide!⟩, ⟨by decide!, rfl, by decide!, by decide!⟩⟩

/-- C4 (amended): when exactly one factor `f` has non-zero effective weight `ew` and the
bias strength is 0, `computeScores` gives each option the double `fl (fl (ew * s) / ew)`,
where `s` is `f`'s score for it (0 when the entry is missing); this is exactly `s`
whenever the product `ew * s` is exactly representable (whole-number scores with slider
weights, for instance). With two options and non-negative weights, multipliers and scores,
`getWinnerIds` returns only the higher-scored option when the returned scores differ by at
least 0.001, hence when the factor scores do and both products are exact. -/
theorem single_factor_scores_double (m : Model) (pre post : List Factor) (f : Factor)
    (hf : m.factors = pre ++ f :: post) (hz : ∀ g ∈ pre ++ post, IEEE.effectiveWeight g = 0)
    (hne : IEEE.effectiveWeight f ≠ 0) (hb : m.bias.strength = 0) :
    (∀ r ∈ m.restaurants, (IEEE.computeScores m).get r.id
      = some (fl (fl (IEEE.effectiveWeight f * orZero (f.scores.get r.id))
          / IEEE.effectiveWeight f))) ∧
    (∀ r ∈ m.restaurants,
      fl (IEEE.effectiveWeight f * orZero (f.scores.get r.id))
        = IEEE.effectiveWeight f * orZero (f.scores.get r.id) →
      fl (orZero (f.scores.get r.id)) = orZero (f.scores.get r.id) →
      (IEEE.computeScores m).get r.id = some (orZero (f.scores.get r.id))) ∧
    (NonNegModel m → ∀ A B : Restaurant, m.restaurants = [A, B] → A.id ≠ B.id →
      (IEEE.scoreOf m B.id + 1/1000 ≤ IEEE.scoreOf m A.id →
        IEEE.getWinnerIds m (IEEE.computeScores m) = [A.id]) ∧
      (IEEE.scoreOf m A.id + 1/1000 ≤ IEEE.scoreOf m B.id →
        IEEE.getWinnerIds m (IEEE.computeScores m) = [B.id])) ∧
    (NonNegModel m → ∀ A B : Restaurant, m.restaurants = [A, B] → A.id ≠ B.id →
      (∀ r ∈ [A, B],
        fl (IEEE.effectiveWeight f * orZero (f.scores.get r.id))
          = IEEE.effectiveWeight f * orZero (f.scores.get r.id) ∧
        fl (orZero (f.scores.get r.id)) = orZero (f.scores.get r.id)) →
      (orZero (f.scores.get B.id) + 1/1000 ≤ orZero (f.scores.get A.id) →
        IEEE.getWinnerIds m (IEEE.computeScores m) = [A.id]) ∧
      (orZero (f.scores.get A.id) + 1/1000 ≤ orZero (f.scores.get B.id) →
        IEEE.getWinnerIds m (IEEE.computeScores m) = [B.id])) := by
  have hs := ieee_scoreOf_single m pre post f hf hz hne hb
  have hw : IEEE.totalWeight m ≠ 0 := by
    rw [ieee_totalWeight_single m pre post f hf hz hb]
    exact hne
  have hexact : ∀ rid : String,
      fl (IEEE.effectiveWeight f * orZero (f.scores.get rid))
        = IEEE.effectiveWeight f * orZero (f.scores.get rid) →
      fl (orZero (f.scores.get rid)) = orZero (f.scores.get rid) →
      IEEE.scoreOf m rid = orZero (f.scores.get rid) := by
    intro rid h1 h2
    rw [hs, h1, mul_div_cancel_left₀ _ hne, h2]
  have hwin : NonNegModel m → ∀ A B : Restaurant, m.restaurants = [A, B] → A.id ≠ B.id →
      (IEEE.scoreOf m B.id + 1/1000 ≤ IEEE.scoreOf m A.id →
        IEEE.getWinnerIds m (IEEE.computeScores m) = [A.id]) ∧
      (IEEE.scoreOf m A.id + 1/1000 ≤ IEEE.scoreOf m B.id →
        IEEE.getWinnerIds m (IEEE.computeScores m) = [B.id]) := by
    intro hn A B hr hAB
    exact ⟨fun hgap => ieee_winner_of_margin m A B hr hAB hw (ieee_scoreOf_nonneg m hn _) hgap,
      fun hgap => ieee_winner_of_margin_second m A B hr hAB hw (ieee_scoreOf_nonneg m hn _) hgap⟩
  refine ⟨?_, ?_, hwin, ?_⟩
  · intro r hr
    rw [ieee_computeScores_get_of_mem m r hr, hs]
  · intro r hr h1 h2
    rw [ieee_computeScores_get_of_mem m r hr, hexact r.id h1 h2]
  · intro hn A B hr hAB hex
    have hA := hexact A.id (hex A (by simp)).1 (hex A (by simp)).2
    have hB := hexact B.id (hex B (by simp)).1 (hex B (by simp)).2
    have h := hwin hn A B hr hAB
    rw [hA, hB] at h
    exact h

theorem single_factor_scores_double_witness :
    exampleModel.factors.map IEEE.effectiveWeight = [10] ∧ exampleModel.bias.strength = 0 ∧
    (IEEE.computeScores exampleModel).get "A" = some 8 ∧
    (IEEE.computeScores exampleModel).get "B" = some 2 ∧
    IEEE.getWinnerIds exampleModel (IEEE.computeScores exampleModel) = ["A"] := by
  have h := single_factor_scores_double exampleModel [] []
    ⟨"f1", "F", 10, some 1, [("A", 8), ("B", 2)]⟩ rfl (by simp) (by decide!) rfl
  refine ⟨by decide!, rfl, h.2.1 ⟨"A", "A"⟩ (by decide!) (by decide!) (by decide!),
    h.2.1 ⟨"B", "B"⟩ (by decide!) (by decide!) (by decide!), ?_⟩
  exact (h.2.2.2 (by decide!) ⟨"A", "A"⟩ ⟨"B", "B"⟩ rfl (by decide!) (by decide!)).1
    (by decide!)

/-! ## Double-precision scoring on slider values: sums are exact -/

theorem fl_quarter_nat (k : ℕ) (hk : k < 2 ^ 53) : fl ((k : ℚ) / 4) = (k : ℚ) / 4 := by
  have h := fl_quarter (k : ℤ) (by rw [abs_of_nonneg (by positivity)]; exact_mod_cast hk)
  simpa using h

theorem slider_value_nat (w : ℚ) (h : w ∈ sliderValues) : ∃ n : ℕ, n ≤ 10 ∧ w = n := by
  simp only [sliderValues, List.mem_cons, List.mem_singleton, List.mem_nil_iff, or_false] at h
  rcases h with h | h | h | h | h | h | h | h | h | h | h
  · exact ⟨0, by norm_num, by rw [h]; norm_num⟩
  · exact ⟨1, by norm_num, by rw [h]; norm_num⟩
  · exact ⟨2, by norm_num, by rw [h]; norm_num⟩
  · exact ⟨3, by norm_num, by rw [h]; norm_num⟩
  · exact ⟨4, by norm_num, by rw [h]; norm_num⟩
  · exact ⟨5, by norm_num, by rw [h]; norm_num⟩
  · exact ⟨6, by norm_num, by rw [h]; norm_num⟩
  · exact ⟨7, by norm_num, by rw [h]; norm_num⟩
  · exact ⟨8, by norm_num, by rw [h]; norm_num⟩
  · exact ⟨9, by norm_num, by rw [h]; norm_num⟩
  · exact ⟨10, by norm_num, by rw [h]; norm_num⟩

theorem step_quarter (q : Option ℚ) (h : q ∈ multiplierSteps.map some) :
    ∃ j : ℕ, 1 ≤ j ∧ j ≤ 16 ∧ orOne q = (j : ℚ) / 4 := by
  simp only [multiplierSteps, List.map_cons, List.map_nil, List.mem_cons, List.mem_singleton,
    List.mem_nil_iff, or_false] at h
  rcases h with h | h | h | h | h | h | h | h | h | h
  · exact ⟨1, by norm_num, by norm_num, by rw [h]; norm_num [orOne]⟩
  · exact ⟨2, by norm_num, by norm_num, by rw [h]; norm_num [orOne]⟩
  · exact ⟨3, by norm_num, by norm_num, by rw [h]; norm_num [orOne]⟩
  · exact ⟨4, by norm_num, by norm_num, by rw [h]; norm_num [orOne]⟩
  · exact ⟨6, by norm_num, by norm_num, by rw [h]; norm_num [orOne]⟩
  · exact ⟨8, by norm_num, by norm_num, by rw [h]; norm_num [orOne]⟩
  · exact ⟨10, by norm_num, by norm_num, by rw [h]; norm_num [orOne]⟩
  · exact ⟨12, by norm_num, by norm_num, by rw [h]; norm_num [orOne]⟩
  · exact ⟨14, by norm_num, by norm_num, by rw [h]; norm_num [orOne]⟩
  · exact ⟨16, by norm_num, by norm_num, by rw [h]; norm_num [orOne]⟩

theorem slider_product_quarter (w : ℚ) (q : Option ℚ) (hw : w ∈ sliderValues)
    (hq : q ∈ multiplierSteps.map some) :
    ∃ k : ℕ, k ≤ 160 ∧ w * orOne q = (k : ℚ) / 4 ∧ fl (w * orOne q) = (k : ℚ) / 4 := by
  obtain ⟨n, hn, rfl⟩ := slider_value_nat w hw
  obtain ⟨j, _, hj, hjq⟩ := step_quarter q hq
  have hk : n * j ≤ 160 := by nlinarith
  have he : (n : ℚ) * orOne q = ((n * j : ℕ) : ℚ) / 4 := by
    rw [hjq]
    push_cast
    ring
  refine ⟨n * j, hk, he, ?_⟩
  rw [he]
  exact fl_quarter_nat _ (by omega)

theorem foldl_fl_add_exact {α : Type} (v v' : α → ℚ) (B : ℕ) (l : List α)
    (hv : ∀ g ∈ l, ∃ k : ℕ, k ≤ B ∧ v g = (k : ℚ) / 4 ∧ v' g = (k : ℚ) / 4)
    (a : ℚ) (K : ℕ) (ha : a = (K : ℚ) / 4) (hK : K + B * l.length < 2 ^ 53) :
    l.foldl (fun acc g => fl (acc + v' g)) a = a + (l.map v).sum ∧
    ∃ K' : ℕ, K' ≤ K + B * l.length ∧ a + (l.map v).sum = (K' : ℚ) / 4 := by
  induction l generalizing a K with
  | nil => exact ⟨by simp, K, by simp, by simpa using ha⟩
  | cons g gs ih =>
    obtain ⟨k, hk, hvg, hvg'⟩ := hv g (List.mem_cons_self _ _)
    simp only [List.length_cons] at hK
    have hstep : fl (a + v' g) = ((K + k : ℕ) : ℚ) / 4 := by
      rw [ha, hvg', ← add_div, ← Nat.cast_add]
      exact fl_quarter_nat _ (by nlinarith)
    have hsum : a + v g = ((K + k : ℕ) : ℚ) / 4 := by
      rw [ha, hvg, ← add_div, ← Nat.cast_add]
    obtain ⟨h1, K', hK', h2⟩ := ih (fun x hx => hv x (List.mem_cons_of_mem _ hx))
      (((K + k : ℕ) : ℚ) / 4) (K + k) rfl (by nlinarith)
    rw [List.foldl_cons, hstep, List.map_cons, List.sum_cons, ← add_assoc, hsum]
    exact ⟨h1, K', by simp only [List.length_cons]; nlinarith, h2⟩

/-! ## C6 -/

theorem sliderRange_weight (m : Model) (hr : SliderRange m) (f : Factor) (hf : f ∈ m.factors) :
    ∃ k : ℕ, k ≤ 160 ∧ effectiveWeight f = (k : ℚ) / 4 ∧ IEEE.effectiveWeight f = (k : ℚ) / 4 :=
  slider_product_quarter f.weight f.multiplier (hr.1 f hf).1 (hr.1 f hf).2.1

theorem sliderRange_bias (m : Model) (hr : SliderRange m) :
    ∃ k : ℕ, k ≤ 160 ∧ effectiveBias m.bias = (k : ℚ) / 4 ∧
      IEEE.effectiveBias m.bias = (k : ℚ) / 4 :=
  slider_product_quarter m.bias.strength m.bias.multiplier hr.2.1 hr.2.2.1

theorem sliderRange_totalWeight (m : Model) (hr : SliderRange m) :
    IEEE.totalWeight m = totalWeight m ∧
    ∃ K : ℕ, K ≤ 160 * (m.factors.length + 1) ∧ totalWeight m = (K : ℚ) / 4 := by
  have hlen := hr.2.2.2
  obtain ⟨h1, K', hK', h2⟩ := foldl_fl_add_exact effectiveWeight IEEE.effectiveWeight 160
    m.factors (fun f hf => by
      obtain ⟨k, hk, e1, e2⟩ := sliderRange_weight m hr f hf
      exact ⟨k, hk, e1, e2⟩) 0 0 (by norm_num) (by norm_num; omega)
  obtain ⟨kb, hkb, eb1, eb2⟩ := sliderRange_bias m hr
  rw [zero_add] at h1 h2
  have hsum : (m.factors.map effectiveWeight).sum + effectiveBias m.bias
      = ((K' + kb : ℕ) : ℚ) / 4 := by
    rw [h2, eb1, ← add_div, ← Nat.cast_add]
  constructor
  · unfold IEEE.totalWeight
    rw [h1, eb2, totalWeight_eq, h2, eb1, ← add_div, ← Nat.cast_add]
    exact fl_quarter_nat _ (by omega)
  · exact ⟨K' + kb, by omega, by rw [totalWeight_eq, hsum]⟩

theorem ieee_weighted_bounds (rid : String) (fs : List Factor)
    (hfs : ∀ f ∈ fs, (∃ k : ℕ, k ≤ 160 ∧ effectiveWeight f = (k : ℚ) / 4 ∧
        IEEE.effectiveWeight f = (k : ℚ) / 4) ∧
      0 ≤ orZero (f.scores.get rid) ∧ orZero (f.scores.get rid) ≤ 10)
    (acc a : ℚ) (K : ℕ) (h0 : 0 ≤ acc) (hacc : acc ≤ 10 * a) (ha : a = (K : ℚ) / 4)
    (hK : 10 * (K + 160 * fs.length) < 2 ^ 53) :
    0 ≤ fs.foldl (fun weighted f =>
        fl (weighted + fl (IEEE.effectiveWeight f * orZero (f.scores.get rid)))) acc ∧
    fs.foldl (fun weighted f =>
        fl (weighted + fl (IEEE.effectiveWeight f * orZero (f.scores.get rid)))) acc
      ≤ 10 * (a + (fs.map effectiveWeight).sum) := by
  induction fs generalizing acc a K with
  | nil => simpa using ⟨h0, hacc⟩
  | cons f fs ih =>
    obtain ⟨⟨k, hk, e1, e2⟩, hs0, hs10⟩ := hfs f (List.mem_cons_self _ _)
    simp only [List.length_cons] at hK
    have hew : (0 : ℚ) ≤ (k : ℚ) / 4 := by positivity
    have ht0 : 0 ≤ fl (IEEE.effectiveWeight f * orZero (f.scores.get rid)) := by
      rw [e2]
      exact fl_nonneg _ (mul_nonneg hew hs0)
    have ht10 : fl (IEEE.effectiveWeight f * orZero (f.scores.get rid))
        ≤ ((10 * k : ℕ) : ℚ) / 4 := by
      have hm := fl_mono_nonneg (IEEE.effectiveWeight f * orZero (f.scores.get rid))
        (((10 * k : ℕ) : ℚ) / 4) (by rw [e2]; exact mul_nonneg hew hs0) (by
          rw [e2]
          push_cast
          have := mul_le_mul_of_nonneg_left hs10 hew
          linarith)
      rwa [fl_quarter_nat _ (by omega)] at hm
    have hnew0 : 0 ≤ fl (acc + fl (IEEE.effectiveWeight f * orZero (f.scores.get rid))) :=
      fl_nonneg _ (add_nonneg h0 ht0)
    have hnew : fl (acc + fl (IEEE.effectiveWeight f * orZero (f.scores.get rid)))
        ≤ 10 * (((K + k : ℕ) : ℚ) / 4) := by
      have hm := fl_mono_nonneg
        (acc + fl (IEEE.effectiveWeight f * orZero (f.scores.get rid)))
        (((10 * (K + k) : ℕ) : ℚ) / 4) (add_nonneg h0 ht0) (by
          rw [ha] at hacc
          push_cast at ht10 ⊢
          linarith)
      rw [fl_quarter_nat _ (by omega)] at hm
      push_cast at hm ⊢
      linarith
    have ih' := ih (fun g hg => hfs g (List.mem_cons_of_mem _ hg)) _ (((K + k : ℕ) : ℚ) / 4)
      (K + k) hnew0 hnew rfl (by omega)
    rw [List.foldl_cons, List.map_cons, List.sum_cons, e1, ← add_assoc, ha, ← add_div,
      ← Nat.cast_add]
    exact ih'

theorem ieee_scoreOf_bounds (m : Model) (hr : SliderRange m) (hpos : 0 < IEEE.totalWeight m)
    (rid : String) : 0 ≤ IEEE.scoreOf m rid ∧ IEEE.scoreOf m rid ≤ 10 := by
  obtain ⟨htw, K, hK, hKeq⟩ := sliderRange_totalWeight m hr
  have hlen := hr.2.2.2
  obtain ⟨kb, hkb, eb1, eb2⟩ := sliderRange_bias m hr
  have hW := ieee_weighted_bounds rid m.factors (fun f hf =>
      ⟨sliderRange_weight m hr f hf, orZero_get_bounds f.scores rid (hr.1 f hf).2.2⟩)
    0 0 0 (le_refl _) (by norm_num) (by norm_num) (by norm_num; omega)
  rw [zero_add] at hW
  have hT : totalWeight m = (m.factors.map effectiveWeight).sum + (kb : ℚ) / 4 := by
    rw [totalWeight_eq, eb1]
  have hne : IEEE.totalWeight m ≠ 0 := ne_of_gt hpos
  have hnum : ∀ num : ℚ, 0 ≤ num → num ≤ 10 * IEEE.totalWeight m →
      0 ≤ fl (num / IEEE.totalWeight m) ∧ fl (num / IEEE.totalWeight m) ≤ 10 := by
    intro num h0 h10
    have hq0 : 0 ≤ num / IEEE.totalWeight m := div_nonneg h0 (le_of_lt hpos)
    have hq10 : num / IEEE.totalWeight m ≤ 10 := by
      rw [div_le_iff₀ hpos]
      exact h10
    have := fl_mono_nonneg _ _ hq0 hq10
    rw [fl_ten] at this
    exact ⟨fl_nonneg _ hq0, this⟩
  have hebpos : (0 : ℚ) ≤ (kb : ℚ) / 4 := by positivity
  unfold IEEE.scoreOf
  simp only [hne, if_false]
  split
  · apply hnum
    · exact fl_nonneg _ (add_nonneg hW.1 (fl_nonneg _ (by rw [eb2]; positivity)))
    · have h10b : fl (IEEE.effectiveBias m.bias * 10) = ((10 * kb : ℕ) : ℚ) / 4 := by
        rw [eb2, show (kb : ℚ) / 4 * 10 = ((10 * kb : ℕ) : ℚ) / 4 by push_cast; ring]
        exact fl_quarter_nat _ (by omega)
      rw [h10b, htw, hKeq]
      have hm := fl_mono_nonneg
        (IEEE.weightedSum m.factors rid + ((10 * kb : ℕ) : ℚ) / 4)
        (((10 * K : ℕ) : ℚ) / 4) (add_nonneg hW.1 (by positivity)) (by
          have := hW.2
          rw [hKeq] at hT
          unfold IEEE.weightedSum
          push_cast
          linarith)
      rw [fl_quarter_nat _ (by omega)] at hm
      push_cast at hm ⊢
      linarith
  · apply hnum
    · exact hW.1
    · rw [htw, hT]
      have := hW.2
      unfold IEEE.weightedSum
      linarith

/-- C6, as stated, fails in double precision: with no factors and a bias of strength 0.3
and multiplier 0.75 every value is in its range and `totalWeight > 0`, yet the score
returned for the target is 10.000000000000002, above 10. -/
theorem score_exceeds_ten_by_rounding :
    InRange (biasOnly (fl (3/10))) ∧ 0 < IEEE.totalWeight (biasOnly (fl (3/10))) ∧
    (IEEE.computeScores (biasOnly (fl (3/10)))).get "A" = some (10 + (2 : ℚ) ^ (-49 : ℤ)) ∧
    ¬ (10 + (2 : ℚ) ^ (-49 : ℤ) ≤ 10) := by
  refine ⟨by decide!, by decide!, by decide!, by norm_num⟩

/-- C6 (amended): when every factor weight and the bias strength are slider values
(whole numbers 0 to 10), every multiplier is one of `multiplierSteps`, every present
factor score is in [0,10] and `totalWeight > 0`, every score returned by `computeScores`
in double precision lies in [0,10]. -/
theorem scores_in_range_double (m : Model) (hr : SliderRange m)
    (hpos : 0 < IEEE.totalWeight m) :
    (∀ k s, (IEEE.computeScores m).get k = some s → 0 ≤ s ∧ s ≤ 10) ∧
    (∀ r ∈ m.restaurants,
      ∃ s, (IEEE.computeScores m).get r.id = some s ∧ 0 ≤ s ∧ s ≤ 10) := by
  constructor
  · intro k s hs
    rw [ieee_computeScores_get] at hs
    split at hs
    · cases hs
      exact ieee_scoreOf_bounds m hr hpos k
    · cases hs
  · intro r hr'
    exact ⟨_, ieee_computeScores_get_of_mem m r hr', ieee_scoreOf_bounds m hr hpos r.id⟩

theorem scores_in_range_double_witness :
    (SliderRange initialModel ∧ 0 < IEEE.totalWeight initialModel) ∧
    (IEEE.computeScores initialModel).get "r2" = some (fl (29/6)) ∧
    ((∀ k s, (IEEE.computeScores initialModel).get k = some s → 0 ≤ s ∧ s ≤ 10) ∧
     (∀ r ∈ initialModel.restaurants,
        ∃ s, (IEEE.computeScores initialModel).get r.id = some s ∧ 0 ≤ s ∧ s ≤ 10)) :=
  ⟨⟨by decide!, by decide!⟩, by decide!,
    scores_in_range_double initialModel (by decide!) (by decide!)⟩

/-! ## C12 -/

theorem ieee_other_scores_mono (m : Model) (b' : ℚ)
    (hfs : ∀ f ∈ m.factors, 0 ≤ f.weight ∧ (∀ q ∈ f.multiplier, (0 : ℚ) < q) ∧
      ∀ e ∈ f.scores, 0 ≤ e.2 ∧ e.2 ≤ 10)
    (hmul : ∀ q ∈ m.bias.multiplier, (0 : ℚ) < q)
    (hb : 0 ≤ m.bias.strength) (hb' : m.bias.strength < b') (hpos : 0 < IEEE.totalWeight m)
    (k : String) (hk : ¬ some k = m.bias.targetId) :
    IEEE.scoreOf (setBiasStrength m b') k ≤ IEEE.scoreOf m k := by
  have hmu : 0 < orOne m.bias.multiplier := orOne_pos _ hmul
  have hew : ∀ f ∈ m.factors, 0 ≤ IEEE.effectiveWeight f := fun f hf =>
    fl_nonneg _ (mul_nonneg (hfs f hf).1
      (le_of_lt (orOne_pos _ (hfs f hf).2.1)))
  have hS : 0 ≤ m.factors.foldl (fun sum f => fl (sum + IEEE.effectiveWeight f)) 0 :=
    foldl_fl_add_nonneg IEEE.effectiveWeight m.factors hew 0 (le_refl _)
  have heb0 : 0 ≤ IEEE.effectiveBias m.bias :=
    fl_nonneg _ (mul_nonneg hb (le_of_lt hmu))
  have heb : IEEE.effectiveBias m.bias ≤ IEEE.effectiveBias (setBiasStrength m b').bias := by
    simp only [IEEE.effectiveBias, setBiasStrength]
    exact fl_mono_nonneg _ _ (mul_nonneg hb (le_of_lt hmu))
      (mul_le_mul_of_nonneg_right (le_of_lt hb') (le_of_lt hmu))
  have hT : IEEE.totalWeight m ≤ IEEE.totalWeight (setBiasStrength m b') := by
    unfold IEEE.totalWeight
    have hfac : (setBiasStrength m b').factors = m.factors := rfl
    rw [hfac]
    exact fl_mono_nonneg _ _ (add_nonneg hS heb0) (by linarith)
  have hpos' : 0 < IEEE.totalWeight (setBiasStrength m b') := lt_of_lt_of_le hpos hT
  have hA : 0 ≤ IEEE.weightedSum m.factors k :=
    foldl_fl_add_nonneg (fun f => fl (IEEE.effectiveWeight f * orZero (f.scores.get k)))
      m.factors (fun f hf => fl_nonneg _ (mul_nonneg (hew f hf)
        (orZero_get_bounds f.scores k (hfs f hf).2.2).1)) 0 (le_refl _)
  have hk' : ¬ some k = (setBiasStrength m b').bias.targetId := hk
  have hfac : (setBiasStrength m b').factors = m.factors := rfl
  simp only [IEEE.scoreOf, ne_of_gt hpos, ne_of_gt hpos', if_false, hk, hk', hfac]
  exact fl_mono_nonneg _ _ (div_nonneg hA (le_of_lt hpos'))
    (div_le_div_of_nonneg_left hA hpos hT)

theorem exact_target_score_mono (m : Model) (t : String) (b' : ℚ)
    (hfs : ∀ f ∈ m.factors, 0 ≤ f.weight ∧ (∀ q ∈ f.multiplier, (0 : ℚ) < q) ∧
      ∀ e ∈ f.scores, 0 ≤ e.2 ∧ e.2 ≤ 10)
    (hmul : ∀ q ∈ m.bias.multiplier, (0 : ℚ) < q)
    (ht : m.bias.targetId = some t) (hb : 0 ≤ m.bias.strength)
    (hb' : m.bias.strength < b') (hpos : 0 < totalWeight m) :
    0 ≤ scoreOf m t ∧ scoreOf m t ≤ scoreOf (setBiasStrength m b') t := by
  have hmu : 0 < orOne m.bias.multiplier := orOne_pos _ hmul
  have hew : ∀ f ∈ m.factors, 0 ≤ effectiveWeight f := fun f hf =>
    mul_nonneg (hfs f hf).1 (orOne_nonneg _ (fun q hq => le_of_lt ((hfs f hf).2.1 q hq)))
  have heb0 : 0 ≤ effectiveBias m.bias := mul_nonneg hb (le_of_lt hmu)
  have he : effectiveBias m.bias ≤ effectiveBias (setBiasStrength m b').bias := by
    simp only [effectiveBias, setBiasStrength]
    exact mul_le_mul_of_nonneg_right (le_of_lt hb') (le_of_lt hmu)
  have hT : 0 < (m.factors.map effectiveWeight).sum + effectiveBias m.bias := by
    rw [← totalWeight_eq]
    exact hpos
  have hT' : 0 < (m.factors.map effectiveWeight).sum
      + effectiveBias (setBiasStrength m b').bias := by linarith
  have htw' : totalWeight (setBiasStrength m b')
      = (m.factors.map effectiveWeight).sum + effectiveBias (setBiasStrength m b').bias :=
    totalWeight_eq _
  have hbounds := weighted_bounds m.factors t hew
    (fun f hf => orZero_get_bounds f.scores t (hfs f hf).2.2)
  rw [← weightedSum_eq] at hbounds
  have hscore : scoreOf m t = (weightedSum m.factors t + effectiveBias m.bias * 10)
      / ((m.factors.map effectiveWeight).sum + effectiveBias m.bias) := by
    have hne : (m.factors.map effectiveWeight).sum + effectiveBias m.bias ≠ 0 := ne_of_gt hT
    simp only [scoreOf, totalWeight_eq, hne, if_false, ht, if_true]
  have hscore' : scoreOf (setBiasStrength m b') t
      = (weightedSum m.factors t + effectiveBias (setBiasStrength m b').bias * 10)
        / ((m.factors.map effectiveWeight).sum
            + effectiveBias (setBiasStrength m b').bias) := by
    have hne : (m.factors.map effectiveWeight).sum
        + effectiveBias (setBiasStrength m b').bias ≠ 0 := ne_of_gt hT'
    have ht' : (setBiasStrength m b').bias.targetId = some t := ht
    have hfac : (setBiasStrength m b').factors = m.factors := rfl
    simp only [scoreOf, htw', hne, if_false, ht', hfac, if_true]
  rw [hscore, hscore']
  exact ⟨div_nonneg (add_nonneg hbounds.1 (mul_nonneg heb0 (by norm_num))) (le_of_lt hT),
    target_quotient_mono _ _ _ _ hbounds.2 hT he⟩

theorem integer_score_nat (m : Model) (hi : IntegerScores m) (f : Factor) (hf : f ∈ m.factors)
    (rid : String) : ∃ n : ℕ, n ≤ 10 ∧ orZero (f.scores.get rid) = n := by
  cases hg : f.scores.get rid with
  | none => exact ⟨0, by norm_num, by simp [orZero]⟩
  | some s =>
    obtain ⟨n, hn, hs⟩ := slider_value_nat s (hi f hf (rid, s) (obj_get_mem f.scores rid s hg))
    exact ⟨n, hn, by simpa [orZero] using hs⟩

theorem ieee_scoreOf_exact (m : Model) (hr : SliderRange m) (hi : IntegerScores m)
    (rid : String) : IEEE.scoreOf m rid = fl (scoreOf m rid) := by
  obtain ⟨htw, K, hK, hKeq⟩ := sliderRange_totalWeight m hr
  have hlen := hr.2.2.2
  obtain ⟨kb, hkb, eb1, eb2⟩ := sliderRange_bias m hr
  obtain ⟨hW, Kw, hKw, hWeq⟩ := foldl_fl_add_exact
    (fun f => effectiveWeight f * orZero (f.scores.get rid))
    (fun f => fl (IEEE.effectiveWeight f * orZero (f.scores.get rid))) 1600 m.factors
    (fun f hf => by
      obtain ⟨k, hk, e1, e2⟩ := sliderRange_weight m hr f hf
      obtain ⟨n, hn, hs⟩ := integer_score_nat m hi f hf rid
      have hkn : k * n ≤ 1600 := by nlinarith
      have hprod : (k : ℚ) / 4 * (n : ℚ) = ((k * n : ℕ) : ℚ) / 4 := by
        push_cast
        ring
      refine ⟨k * n, hkn, ?_, ?_⟩
      · simp only [e1, hs, hprod]
      · simp only [e2, hs, hprod]
        exact fl_quarter_nat _ (by omega))
    0 0 (by norm_num) (by norm_num; omega)
  rw [zero_add] at hW hWeq
  have hWD : IEEE.weightedSum m.factors rid = weightedSum m.factors rid := by
    unfold IEEE.weightedSum
    rw [hW, weightedSum_eq]
  have hWq : weightedSum m.factors rid = (Kw : ℚ) / 4 := by
    rw [weightedSum_eq, hWeq]
  have h10 : fl (IEEE.effectiveBias m.bias * 10) = effectiveBias m.bias * 10 := by
    rw [eb1, eb2, show (kb : ℚ) / 4 * 10 = ((10 * kb : ℕ) : ℚ) / 4 by push_cast; ring]
    exact fl_quarter_nat _ (by omega)
  have hnum : fl (weightedSum m.factors rid + effectiveBias m.bias * 10)
      = weightedSum m.factors rid + effectiveBias m.bias * 10 := by
    rw [hWq, eb1, show (Kw : ℚ) / 4 + (kb : ℚ) / 4 * 10 = ((Kw + 10 * kb : ℕ) : ℚ) / 4 by
      push_cast; ring]
    exact fl_quarter_nat _ (by omega)
  unfold IEEE.scoreOf scoreOf
  rw [htw, hWD, h10]
  by_cases h0 : totalWeight m = 0
  · simp only [h0, if_true, fl_zero]
  · simp only [h0, if_false]
    split
    · rw [hnum]
    · rfl

/-- C12, as stated, fails in double precision. With one factor (weight 10, multiplier 3,
A=10) and a bias toward A with multiplier 3, raising the bias strength from 1.4 to 9.3
lowers A's score from 10 to 9.999999999999998. With whole-number strengths too: one factor
(weight 7, multiplier 3) whose typed score for A is 9.999999999999991 and a bias toward A
with multiplier 1.5, raising the strength from 3 to 4 lowers A's score from
9.999999999999993 to 9.999999999999991. -/
theorem target_score_drops_by_rounding :
    (0 ≤ (strongFactor (fl (7/5))).bias.strength ∧
      (strongFactor (fl (7/5))).bias.strength < fl (93/10) ∧
      0 < IEEE.totalWeight (strongFactor (fl (7/5))) ∧
      (IEEE.computeScores (strongFactor (fl (7/5)))).get "A" = some 10 ∧
      (IEEE.computeScores (setBiasStrength (strongFactor (fl (7/5))) (fl (93/10)))).get "A"
        = some (10 - (2 : ℚ) ^ (-49 : ℤ)) ∧
      10 - (2 : ℚ) ^ (-49 : ℤ) < 10) ∧
    (SliderRange (nearTenFactor 3) ∧ (4 : ℚ) ∈ sliderValues ∧
      0 < IEEE.totalWeight (nearTenFactor 3) ∧
      (IEEE.computeScores (nearTenFactor 3)).get "A" = some (10 - 4 * (2 : ℚ) ^ (-49 : ℤ)) ∧
      (IEEE.computeScores (setBiasStrength (nearTenFactor 3) 4)).get "A"
        = some (10 - 5 * (2 : ℚ) ^ (-49 : ℤ)) ∧
      10 - 5 * (2 : ℚ) ^ (-49 : ℤ) < 10 - 4 * (2 : ℚ) ^ (-49 : ℤ)) := by
  refine ⟨⟨by decide!, by decide!, by decide!, by decide!, by decide!, by norm_num⟩,
    ⟨by decide!, by decide!, by decide!, by decide!, by decide!, by norm_num⟩⟩

/-- C12 (amended): for a model with non-negative factor weights, positive multipliers,
factor scores in [0,10] and a bias target among the options, raising the bias strength
from `b ≥ 0` to `b' > b` (through the bias slider handler, `totalWeight > 0` at `b`) does
not increase any other option's score in double precision; and it does not decrease the
target's score when the weights, both strengths and the scores are whole numbers 0 to 10
with multipliers from `multiplierSteps`, where every sum and product is exact. -/
theorem bias_strength_monotone_double (m : Model) (t : String) (b' : ℚ)
    (hfs : ∀ f ∈ m.factors, 0 ≤ f.weight ∧ (∀ q ∈ f.multiplier, (0 : ℚ) < q) ∧
      ∀ e ∈ f.scores, 0 ≤ e.2 ∧ e.2 ≤ 10)
    (hmul : ∀ q ∈ m.bias.multiplier, (0 : ℚ) < q)
    (ht : m.bias.targetId = some t) (hmem : t ∈ m.restaurants.map (fun r => r.id))
    (hb : 0 ≤ m.bias.strength) (hb' : m.bias.strength < b')
    (hpos : 0 < IEEE.totalWeight m) :
    (∀ r ∈ m.restaurants, r.id ≠ t →
      ∃ s s', (IEEE.computeScores m).get r.id = some s ∧
        (IEEE.computeScores (setBiasStrength m b')).get r.id = some s' ∧ s' ≤ s) ∧
    (SliderRange m → IntegerScores m → b' ∈ sliderValues →
      ∃ s s', (IEEE.computeScores m).get t = some s ∧
        (IEEE.computeScores (setBiasStrength m b')).get t = some s' ∧ s ≤ s') := by
  constructor
  · intro r hr hne
    have hk : ¬ some r.id = m.bias.targetId := by
      rw [ht]
      exact fun h => hne (Option.some.inj h)
    exact ⟨_, _, ieee_computeScores_get_of_mem m r hr,
      ieee_computeScores_get_of_mem (setBiasStrength m b') r hr,
      ieee_other_scores_mono m b' hfs hmul hb hb' hpos r.id hk⟩
  · intro hr hi hs
    have hr' : SliderRange (setBiasStrength m b') := ⟨hr.1, hs, hr.2.2.1, hr.2.2.2⟩
    have hi' : IntegerScores (setBiasStrength m b') := hi
    have hposq : 0 < totalWeight m := by
      rw [← (sliderRange_totalWeight m hr).1]
      exact hpos
    obtain ⟨h0, hmono⟩ := exact_target_score_mono m t b' hfs hmul ht hb hb' hposq
    refine ⟨IEEE.scoreOf m t, IEEE.scoreOf (setBiasStrength m b') t, ?_, ?_, ?_⟩
    · rw [ieee_computeScores_get]
      simp only [hmem, if_true]
    · rw [ieee_computeScores_get]
      have : t ∈ (setBiasStrength m b').restaurants.map (fun r => r.id) := hmem
      simp only [this, if_true]
    · rw [ieee_scoreOf_exact m hr hi, ieee_scoreOf_exact _ hr' hi']
      exact fl_mono_nonneg _ _ h0 hmono

theorem bias_strength_monotone_double_witness :
    (0 ≤ initialModel.bias.strength ∧ initialModel.bias.strength < 7 ∧
      0 < IEEE.totalWeight initialModel ∧ SliderRange initialModel ∧
      IntegerScores initialModel) ∧
    (IEEE.computeScores initialModel).get "r1" = some (15/2) ∧
    (IEEE.computeScores (setBiasStrength initialModel 7)).get "r1" = some (fl (245/32)) ∧
    (∀ r ∈ initialModel.restaurants, r.id ≠ "r1" →
      ∃ s s', (IEEE.computeScores initialModel).get r.id = some s ∧
        (IEEE.computeScores (setBiasStrength initialModel 7)).get r.id = some s' ∧ s' ≤ s) ∧
    (∃ s s', (IEEE.computeScores initialModel).get "r1" = some s ∧
      (IEEE.computeScores (setBiasStrength initialModel 7)).get "r1" = some s' ∧ s ≤ s') := by
  have h := bias_strength_monotone_double initialModel "r1" 7 (by decide!) (by decide!) rfl
    (by decide!) (by decide!) (by decide!) (by decide!)
  exact ⟨⟨by decide!, by decide!, by decide!, by decide!, by decide!⟩, by decide!, by decide!,
    h.1, h.2 (by decide!) (by decide!) (by decide!)⟩

end Decision
